import Mathlib

/-! Order identity and checkout workflow of the point-of-sale simulator.

A shallow embedding of `src/code.cpp` (classes `Product`, `CartItem`, the payment
strategies, `Order`, `OrderManager`, `ShoppingCart` and the cart branch of `Store::run`)
together with theorems about order-id issuance, the cart, checkout and the order log.

Modelling conventions.

* `int` is a 32-bit two's-complement integer; `x++` is `wrapInt (x + 1)`
  (signed overflow is formally undefined in C++, the model takes the wrap-around that
  the usual targets produce).
* `double` is IEEE-754 binary64 with round-to-nearest-even, every operation rounded on its
  own.  A finite value is kept as the dyadic number it denotes; `none` stands for a
  non-finite result.
* The two files `order_id.txt` and `order_logs.txt` are explicit state, with flags saying
  whether opening them for reading / writing succeeds.
* Fixed arrays with a fill counter (`items[20]` + `itemCount`, `orders[20]` + `orderCount`)
  are the list of their live slots `[0 .. count)`.
* Console output is not state.  Console input is a list of lines still to be read.
-/

namespace Pos

/-! ## Machine integers -/

/-- Largest value of a 32-bit `int`. -/
def INT_MAX : Int := 2147483647

/-- Smallest value of a 32-bit `int`. -/
def INT_MIN : Int := -2147483648

/-- Reduction of a mathematical integer to the 32-bit two's-complement range. -/
def wrapInt (x : Int) : Int := (x + 2147483648) % 4294967296 - 2147483648

/-- Saturation to the `int` range, as done by `operator>>(int&)` on an out-of-range field. -/
def clampInt (x : Int) : Int :=
  if x < INT_MIN then INT_MIN else if INT_MAX < x then INT_MAX else x

/-! ## Text extraction and insertion of an `int` (`>>` and `<<` on an `fstream`) -/

/-- The `isspace` class of the "C" locale. -/
def isSpace (c : Char) : Bool :=
  c = ' ' || c = '\t' || c = '\n' || c = '\x0b' || c = '\x0c' || c = '\r'

/-- The `isdigit` class. -/
def isDigit (c : Char) : Bool := decide ('0' ≤ c ∧ c ≤ '9')

/-- Value of a run of decimal digits. -/
def digitsValue (ds : List Char) : Nat :=
  ds.foldl (fun acc c => 10 * acc + (c.toNat - 48)) 0

/-- The statement `infile >> x` on a freshly opened stream whose remaining content is
`content`, where `old` is the value of `x` before the statement; the result is the value
of `x` after it.

* The sentry skips leading white space; when it reaches the end of the file it sets
  `failbit | eofbit` and the extraction is not attempted: `x` keeps `old`.
* Otherwise `num_get` reads an optional sign and the longest run of digits.  Without any
  digit the conversion fails and `0` is stored; an out-of-range value is saturated. -/
def extractInt (content : List Char) (old : Int) : Int :=
  match content.dropWhile isSpace with
  | [] => old
  | c :: cs =>
    let body := if c = '-' || c = '+' then cs else c :: cs
    let ds := body.takeWhile isDigit
    if ds = [] then 0
    else if c = '-' then clampInt (-(digitsValue ds : Int))
    else clampInt (digitsValue ds : Int)

/-- The statement `outfile << x` for an `int`: the decimal text of `x`. -/
def insertInt (x : Int) : String := toString x

/-! ## The two files -/

/-- The file `order_id.txt`. `content = none` means the file does not exist. -/
structure CounterFile where
  content : Option String
  readable : Bool
  writable : Bool
deriving DecidableEq, Repr

/-- The file `order_logs.txt`, as the list of its lines. -/
structure LogFile where
  lines : List String
  writable : Bool
deriving DecidableEq, Repr

/-- Both files. -/
structure Disk where
  orderId : CounterFile
  orderLogs : LogFile
deriving DecidableEq, Repr

/-! ## `double` arithmetic (IEEE-754 binary64, round to nearest, ties to even) -/

/-- The value `m * 2 ^ e` of a finite `double`, kept in lowest terms: `m` is odd, or `m = 0`
and `e = 0`. -/
structure Dyadic where
  m : Int
  e : Int
deriving DecidableEq, Repr

/-- The rational number denoted by a dyadic value. -/
def Dyadic.toRat (x : Dyadic) : ℚ := (x.m : ℚ) * (2 : ℚ) ^ x.e

/-- A `double`: a finite value, or `none` for an infinity or a NaN.  A non-finite operand
makes every sum and product non-finite, so `none` is absorbing. -/
abbrev Double := Option Dyadic

/-- Nearest natural number to `n / d` (`d > 0`), ties to even. -/
def roundHalfEven (n d : Nat) : Nat :=
  let q := n / d
  let r := n % d
  if 2 * r < d then q else if d < 2 * r then q + 1 else if q % 2 = 0 then q else q + 1

/-- Number of binary digits of `n`, counting at most `fuel` of them. -/
def bitLength : Nat → Nat → Nat
  | 0, _ => 0
  | fuel + 1, n => if n = 0 then 0 else bitLength fuel (n / 2) + 1

/-- The integer `k` with `2 ^ k ≤ n / d < 2 ^ (k + 1)` (`n, d > 0`). -/
def floorLog2 (n d : Nat) : Int :=
  let k : Int := (bitLength n n : Int) - (bitLength d d : Int)
  if d * 2 ^ k.toNat ≤ n * 2 ^ (-k).toNat then k else k - 1

/-- Lowest terms of `m * 2 ^ e`: at most `fuel` trailing zero bits of `m` are moved into the
exponent. -/
def lowestTerms : Nat → Nat → Int → Nat × Int
  | 0, m, e => (m, e)
  | fuel + 1, m, e =>
    if m = 0 then (0, 0)
    else if m % 2 = 0 then lowestTerms fuel (m / 2) (e + 1) else (m, e)

/-- Rounding of the positive rational `n / d` to binary64: a significand of at most 53 bits
scaled by `2 ^ e`, where `e` is at least `-1074` (subnormal range); `none` on overflow.
`negative` is the sign of the result. -/
def roundRatio (negative : Bool) (n d : Nat) : Double :=
  let e : Int := max (floorLog2 n d - 52) (-1074)
  let m := roundHalfEven (n * 2 ^ (-e).toNat) (d * 2 ^ e.toNat)
  if 2 ^ 1024 ≤ m * 2 ^ e.toNat then none
  else
    let (m1, e1) := lowestTerms 64 m e
    some { m := if negative then -(m1 : Int) else (m1 : Int), e := e1 }

/-- Rounding of the exact value `m * 2 ^ e` to binary64. -/
def fl (m e : Int) : Double :=
  if m = 0 then some { m := 0, e := 0 }
  else roundRatio (decide (m < 0)) (m.natAbs * 2 ^ e.toNat) (2 ^ (-e).toNat)

/-- The `double` denoted by the decimal literal `n / 10 ^ k` (`20.50` is `n = 2050`, `k = 2`):
the nearest binary64 value. -/
def Double.ofDecimal (n k : Nat) : Double :=
  if n = 0 then some { m := 0, e := 0 } else roundRatio false n (10 ^ k)

/-- The operator `*` on `double`: the exact product, rounded. -/
def Double.mul (a b : Double) : Double :=
  match a, b with
  | some x, some y => fl (x.m * y.m) (x.e + y.e)
  | _, _ => none

/-- The operator `+` on `double`: the exact sum, rounded. -/
def Double.add (a b : Double) : Double :=
  match a, b with
  | some x, some y =>
    let e := min x.e y.e
    fl (x.m * 2 ^ (x.e - e).toNat + y.m * 2 ^ (y.e - e).toNat) e
  | _, _ => none

/-- Conversion of an `int` to `double` (exact for every 32-bit value). -/
def Double.ofInt (i : Int) : Double := fl i 0

/-! ## `Product` and `CartItem` -/

/-- Class `Product`. -/
structure Product where
  id : String
  name : String
  price : Double
deriving DecidableEq

/-- Class `CartItem`. -/
structure CartItem where
  product : Product
  quantity : Int
deriving DecidableEq

/-- The method `CartItem::incrementQuantity`: `quantity++`. -/
def CartItem.incrementQuantity (item : CartItem) : CartItem :=
  { item with quantity := wrapInt (item.quantity + 1) }

/-! ## Payment strategy -/

/-- The three concrete subclasses of `PaymentStrategy`. -/
inductive PaymentStrategy where
  | CashPayment
  | CardPayment
  | GCashPayment
deriving DecidableEq, Repr

/-- The virtual method `pay`: the label it returns (the receipt line goes to the console). -/
def PaymentStrategy.pay : PaymentStrategy → Double → String
  | .CashPayment, _ => "Cash"
  | .CardPayment, _ => "Credit/Debit Card"
  | .GCashPayment, _ => "GCash"

/-- Class `PaymentContext`: the strategy pointer, `none` for `nullptr`. -/
structure PaymentContext where
  strategy : Option PaymentStrategy
deriving DecidableEq, Repr

/-- The method `PaymentContext::setStrategy`. -/
def PaymentContext.setStrategy (_ctx : PaymentContext) (st : PaymentStrategy) : PaymentContext :=
  { strategy := some st }

/-! ## `Order` -/

/-- Class `Order`. `items` holds the written slots of `items[20]`. -/
structure Order where
  orderId : Int
  items : List CartItem
  itemCount : Int
  paymentMethod : String
deriving DecidableEq

/-- The constructor `Order(int orderId)`. -/
def Order.new (orderId : Int) : Order :=
  { orderId := orderId, items := [], itemCount := 0, paymentMethod := "" }

/-- The method `Order::addItem`: the slot is written only below the capacity, the counter is
incremented in every case. -/
def Order.addItem (o : Order) (item : CartItem) : Order :=
  { o with
    items := if o.itemCount < 20 then o.items ++ [item] else o.items
    itemCount := wrapInt (o.itemCount + 1) }

/-- The method `Order::setPaymentMethod`. -/
def Order.setPaymentMethod (o : Order) (method : String) : Order :=
  { o with paymentMethod := method }

/-! ## `OrderManager` -/

/-- The singleton `OrderManager`. `orders` are the slots `[0 .. orderCount)` of `orders[20]`;
`lastOrderId` is not initialised by the constructor. -/
structure OrderManager where
  orders : List Order
  lastOrderId : Int
deriving DecidableEq

/-- Whole program state. `cart` is the `ShoppingCart`: the slots `[0 .. itemCount)` of its
`items[20]`. -/
structure State where
  disk : Disk
  manager : OrderManager
  cart : List CartItem
  paymentContext : PaymentContext
deriving DecidableEq

/-- The method `OrderManager::loadLastOrderId`. -/
def loadLastOrderId (s : State) : State :=
  match s.disk.orderId.content with
  | some text =>
    if s.disk.orderId.readable then
      { s with manager := { s.manager with
          lastOrderId := extractInt text.data s.manager.lastOrderId } }
    else
      { s with manager := { s.manager with lastOrderId := 0 } }
  | none => { s with manager := { s.manager with lastOrderId := 0 } }

/-- The method `OrderManager::saveLastOrderId`: nothing is written when the file cannot be
opened for output. -/
def saveLastOrderId (s : State) : State :=
  if s.disk.orderId.writable then
    { s with disk := { s.disk with orderId := { s.disk.orderId with
        content := some (insertInt s.manager.lastOrderId) } } }
  else s

/-- The method `OrderManager::getNextOrderId`: the returned id and the state after the call. -/
def getNextOrderId (s : State) : Int × State :=
  let s1 := loadLastOrderId s
  let s2 := { s1 with manager := { s1.manager with
    lastOrderId := wrapInt (s1.manager.lastOrderId + 1) } }
  let s3 := saveLastOrderId s2
  (s3.manager.lastOrderId, s3)

/-- The line that `addOrder` sends to `order_logs.txt`. -/
def logLine (order : Order) : String :=
  "Order ID: " ++ insertInt order.orderId ++
    " has been successfully checked out and paid using " ++ order.paymentMethod ++ "."

/-- The method `OrderManager::addOrder`. -/
def addOrder (s : State) (order : Order) : State :=
  if s.manager.orders.length < 20 then
    let s1 := { s with manager := { s.manager with orders := s.manager.orders ++ [order] } }
    if s1.disk.orderLogs.writable then
      { s1 with disk := { s1.disk with orderLogs := { s1.disk.orderLogs with
          lines := s1.disk.orderLogs.lines ++ [logLine order] } } }
    else s1
  else s

/-! ## `ShoppingCart` -/

/-- The search loop of `ShoppingCart::addProduct`: the first line whose product id is `pid`
gets its quantity incremented; `none` when the loop ends without a match. -/
def incrementFirst (pid : String) : List CartItem → Option (List CartItem)
  | [] => none
  | item :: rest =>
    if item.product.id = pid then some (item.incrementQuantity :: rest)
    else (incrementFirst pid rest).map (fun r => item :: r)

/-- The method `ShoppingCart::addProduct`. -/
def addProduct (cart : List CartItem) (product : Product) : List CartItem :=
  match incrementFirst product.id cart with
  | some cart1 => cart1
  | none => if cart.length < 20 then cart ++ [{ product := product, quantity := 1 }] else cart

/-- The method `ShoppingCart::isEmpty`. -/
def isEmpty (cart : List CartItem) : Bool := cart.length == 0

/-- The accumulation loop at the head of `ShoppingCart::checkout`:
`totalAmount += price * quantity` over the lines, starting from `0`. -/
def totalAmount (cart : List CartItem) : Double :=
  cart.foldl (fun total item =>
    Double.add total (Double.mul item.product.price (Double.ofInt item.quantity)))
    (Double.ofInt 0)

/-- The method `ShoppingCart::getPaymentMethodChoice` on the console lines still to be read:
the accepted choice and the remaining lines.  Every rejected line is followed by a new
prompt; when the input is exhausted the loop never ends, which is `none`. -/
def getPaymentMethodChoice : List String → Option (Int × List String)
  | [] => none
  | line :: rest =>
    match line.data with
    | [c] =>
      if isDigit c then
        let choice : Int := ((c.toNat - 48 : Nat) : Int)
        if choice < 1 ∨ choice > 3 then getPaymentMethodChoice rest
        else some (choice, rest)
      else getPaymentMethodChoice rest
    | _ => getPaymentMethodChoice rest

/-- What a run of `checkout` hands to its observer: the total it printed and the `Order` it
constructed (`none` when it returned before constructing one). -/
structure CheckoutResult where
  totalAmount : Double
  newOrder : Option Order
deriving DecidableEq

/-- The construction of `newOrder` in `checkout`: `Order newOrder(id)`, one `addItem` per cart
line, then `setPaymentMethod`. -/
def buildOrder (orderId : Int) (cart : List CartItem) (paymentMethod : String) : Order :=
  (cart.foldl Order.addItem (Order.new orderId)).setPaymentMethod paymentMethod

/-- The `if` / `else if` chain of `checkout` that allocates the strategy; `none` is the final
`else`, which prints `Invalid choice.` and returns. -/
def selectStrategy (paymentMethodChoice : Int) : Option PaymentStrategy :=
  if paymentMethodChoice = 1 then some .CashPayment
  else if paymentMethodChoice = 2 then some .CardPayment
  else if paymentMethodChoice = 3 then some .GCashPayment
  else none

/-- The body of `ShoppingCart::checkout` once `getPaymentMethodChoice` has returned
`paymentMethodChoice`. -/
def checkoutWith (paymentMethodChoice : Int) (s : State) : State × CheckoutResult :=
  let total := totalAmount s.cart
  match selectStrategy paymentMethodChoice with
  | none => (s, { totalAmount := total, newOrder := none })
  | some st =>
    let s1 := { s with paymentContext := s.paymentContext.setStrategy st }
    let paymentMethod := st.pay total
    let (orderId, s2) := getNextOrderId s1
    let newOrder := buildOrder orderId s2.cart paymentMethod
    let s3 := addOrder s2 newOrder
    ({ s3 with cart := [] }, { totalAmount := total, newOrder := some newOrder })

/-- The method `ShoppingCart::checkout` on the console lines still to be read. -/
def checkout (input : List String) (s : State) : Option (State × CheckoutResult × List String) :=
  match getPaymentMethodChoice input with
  | none => none
  | some (choice, rest) =>
    let (s1, r) := checkoutWith choice s
    some (s1, r, rest)

/-! ## `Store` -/

/-- The catalog entry `products[0]`; a decimal literal denotes the nearest `double`. -/
def paper : Product := { id := "QWE", name := "Paper", price := Double.ofDecimal 2050 2 }

/-- The catalog entry `products[1]`. -/
def pencil : Product := { id := "ASD", name := "Pencil", price := Double.ofDecimal 1045 2 }

/-- The catalog entry `products[2]`. -/
def sharpener : Product := { id := "ZXC", name := "Sharpener", price := Double.ofDecimal 1099 2 }

/-- The catalog entry `products[3]`. -/
def ballpen : Product := { id := "RTY", name := "Ballpen", price := Double.ofDecimal 3025 2 }

/-- The catalog entry `products[4]`. -/
def ruler : Product := { id := "FGH", name := "Ruler", price := Double.ofDecimal 9999 2 }

/-- The catalog set up by the constructor of `Store`. -/
def products : List Product := [paper, pencil, sharpener, ballpen, ruler]

/-- The method `Store::findProductById`. -/
def findProductById (id : String) : Option Product :=
  products.find? (fun p => p.id == id)

/-- The method `Store::getCheckoutChoice` on the console lines still to be read: the line is
upper-cased and must be `Y` or `N`; otherwise the question is asked again, without end
when the input is exhausted (`none`). -/
def getCheckoutChoice : List String → Option (Char × List String)
  | [] => none
  | line :: rest =>
    let choice := line.map Char.toUpper
    if choice ≠ "Y" ∧ choice ≠ "N" then getCheckoutChoice rest
    else some (choice.get 0, rest)

/-- The branch `menuChoice == 2` of `Store::run`: show the cart and, when it is not empty and
the user confirms, check out. -/
def cartMenu (input : List String) (s : State) : Option (State × List String) :=
  if !isEmpty s.cart then
    match getCheckoutChoice input with
    | none => none
    | some (checkoutChoice, rest) =>
      if checkoutChoice = 'Y' ∨ checkoutChoice = 'y' then
        match checkout rest s with
        | none => none
        | some (s1, _, rest1) => some (s1, rest1)
      else some (s, rest)
  else some (s, input)

/-! ## Notions used by the statements -/

/-- The counter file holds the decimal text of `v` and can be opened for reading. -/
def holdsValue (d : Disk) (v : Int) : Prop :=
  d.orderId.content = some (insertInt v) ∧ d.orderId.readable = true

instance (d : Disk) (v : Int) : Decidable (holdsValue d v) := by
  unfold holdsValue; infer_instance

/-- The ids returned by `n` successive calls of `getNextOrderId`, in call order, and the state
after the last call. -/
def getNextOrderIds : Nat → State → List Int × State
  | 0, s => ([], s)
  | n + 1, s =>
    let r := getNextOrderId s
    let rs := getNextOrderIds n r.2
    (r.1 :: rs.1, rs.2)

/-- The distinct elements of a list, in the order in which they first occur. -/
def firstOccurrences (ids : List String) : List String := ids.reverse.dedup.reverse

/-- The quantity on the cart line of product `id` (the first such line), if there is one. -/
def quantityOf (cart : List CartItem) (id : String) : Option Int :=
  (cart.find? (fun item => item.product.id = id)).map (fun item => item.quantity)

/-- A product with id `toString i`, for building carts with many distinct products. -/
def sampleProduct (i : Nat) : Product :=
  { id := toString i, name := "Item", price := Double.ofDecimal 100 2 }

/-- A product priced `0.10`. -/
def dime : Product := { id := "DIME", name := "Dime", price := Double.ofDecimal 10 2 }

/-- One purchase of one paper paid with Cash: `addProduct` followed by `checkout` with the
choice `1`. -/
def buyPaper (s : State) : State :=
  (checkoutWith 1 { s with cart := addProduct s.cart paper }).1

/-- What drives the cart: a call of `addProduct`, or a call of `checkout` in which
`getPaymentMethodChoice` returns the given choice. -/
inductive CartOp where
  | addProduct (product : Product)
  | checkout (paymentMethodChoice : Int)

/-- The state after one operation on the cart. -/
def step (s : State) : CartOp → State
  | .addProduct product => { s with cart := addProduct s.cart product }
  | .checkout paymentMethodChoice => (checkoutWith paymentMethodChoice s).1

/-- The state after a sequence of operations on the cart. -/
def run (s : State) (ops : List CartOp) : State := ops.foldl step s

/-- The files as found by a run: the counter file with the given content (readable), an empty
log that can be appended to. -/
def diskWith (content : Option String) (counterWritable : Bool) : Disk :=
  { orderId := { content := content, readable := true, writable := counterWritable },
    orderLogs := { lines := [], writable := true } }

/-- The state of a process that has just started on the files `d`: no order, an empty cart, no
strategy; `junk` is what the uninitialised member `lastOrderId` happens to contain. -/
def startState (junk : Int) (d : Disk) : State :=
  { disk := d, manager := { orders := [], lastOrderId := junk }, cart := [],
    paymentContext := { strategy := none } }

/-- The rational `q` is a finite binary64 value: an integer below `2 ^ 53` in magnitude times a
power of two between `2 ^ (-1074)` and `2 ^ 971`. -/
def isBinary64 (q : ℚ) : Prop :=
  ∃ (m e : Int), m.natAbs < 2 ^ 53 ∧ -1074 ≤ e ∧ e ≤ 971 ∧ q = (m : ℚ) * (2 : ℚ) ^ e

/-- The exact value of `price * quantity` on a cart line with a finite price. -/
def lineValue (item : CartItem) : ℚ :=
  match item.product.price with
  | some x => x.toRat * (item.quantity : ℚ)
  | none => 0

/-- The exact sum of `price * quantity` over the cart lines. -/
def exactTotal (cart : List CartItem) : ℚ := (cart.map lineValue).sum

/-! # Theorems -/

/-! ## Decimal text of an `int` -/

theorem digitChar_spec (d : Nat) (h : d < 10) :
    isDigit (Nat.digitChar d) = true ∧ (Nat.digitChar d).toNat - 48 = d := by
  interval_cases d <;> decide

theorem isDigit_not_space (c : Char) (h : isDigit c = true) :
    isSpace c = false ∧ c ≠ '-' ∧ c ≠ '+' := by
  simp only [isDigit, decide_eq_true_eq] at h
  obtain ⟨h1, h2⟩ := h
  have h1' : (48 : Nat) ≤ c.toNat := h1
  have h2' : c.toNat ≤ 57 := h2
  refine ⟨?_, ?_, ?_⟩
  · simp only [isSpace, Bool.or_eq_false_iff, decide_eq_false_iff_not]
    refine ⟨⟨⟨⟨⟨?_, ?_⟩, ?_⟩, ?_⟩, ?_⟩, ?_⟩ <;> (intro hc; subst hc; revert h1'; decide)
  · intro hc; subst hc; revert h1'; decide
  · intro hc; subst hc; revert h1'; decide

theorem toDigitsCore_digits (fuel : Nat) : ∀ (n : Nat) (acc : List Char),
    (∀ c ∈ acc, isDigit c = true) → ∀ c ∈ Nat.toDigitsCore 10 fuel n acc, isDigit c = true := by
  induction fuel with
  | zero => intro n acc h; simpa [Nat.toDigitsCore] using h
  | succ fuel ih =>
    intro n acc h
    have hd := (digitChar_spec (n % 10) (Nat.mod_lt _ (by norm_num))).1
    have hacc : ∀ c ∈ Nat.digitChar (n % 10) :: acc, isDigit c = true := by
      intro c hc
      rcases List.mem_cons.1 hc with rfl | hc
      · exact hd
      · exact h c hc
    simp only [Nat.toDigitsCore]
    split
    · exact hacc
    · exact ih _ _ hacc

theorem toDigitsCore_ne_nil (fuel n : Nat) (acc : List Char) :
    Nat.toDigitsCore 10 (fuel + 1) n acc ≠ [] := by
  induction fuel generalizing n acc with
  | zero => simp [Nat.toDigitsCore]
  | succ fuel ih =>
    rw [Nat.toDigitsCore]
    split
    · simp
    · exact ih _ _

theorem toDigitsCore_value (fuel : Nat) : ∀ (n : Nat) (acc : List Char), n < fuel →
    (Nat.toDigitsCore 10 fuel n acc).foldl (fun acc c => 10 * acc + (c.toNat - 48)) 0 =
      acc.foldl (fun acc c => 10 * acc + (c.toNat - 48)) n := by
  induction fuel with
  | zero => intro n acc h; omega
  | succ fuel ih =>
    intro n acc h
    have hd := (digitChar_spec (n % 10) (Nat.mod_lt _ (by norm_num))).2
    simp only [Nat.toDigitsCore]
    split
    · rename_i h0
      simp only [List.foldl_cons, hd]
      congr 1
      omega
    · rename_i h0
      rw [ih (n / 10) _ (by omega)]
      simp only [List.foldl_cons, hd]
      congr 1
      omega

theorem extractInt_digits (ds : List Char) (old : Int) (hne : ds ≠ [])
    (hd : ∀ c ∈ ds, isDigit c = true) :
    extractInt ds old = clampInt (digitsValue ds : Int) ∧
      extractInt ('-' :: ds) old = clampInt (-(digitsValue ds : Int)) := by
  obtain ⟨c, cs, rfl⟩ := List.exists_cons_of_ne_nil hne
  have hc := hd c (List.mem_cons_self _ _)
  obtain ⟨hs, hm, hp⟩ := isDigit_not_space c hc
  have htake : List.takeWhile isDigit (c :: cs) = c :: cs :=
    List.takeWhile_eq_self_iff.2 hd
  constructor
  · simp [extractInt, List.dropWhile, hs, hm, hp, htake]
  · have : isSpace '-' = false := by decide
    simp [extractInt, List.dropWhile, this, htake]

theorem extractInt_insertInt (v old : Int) (h1 : INT_MIN ≤ v) (h2 : v ≤ INT_MAX) :
    extractInt (insertInt v).data old = v := by
  have key : ∀ n : Nat, Nat.toDigits 10 n ≠ [] ∧ (∀ c ∈ Nat.toDigits 10 n, isDigit c = true) ∧
      digitsValue (Nat.toDigits 10 n) = n := by
    intro n
    refine ⟨toDigitsCore_ne_nil _ _ _, toDigitsCore_digits _ _ _ (by simp), ?_⟩
    simp only [digitsValue, Nat.toDigits]
    rw [toDigitsCore_value _ _ _ (by omega)]
    simp
  have hclamp : clampInt v = v := by
    simp only [clampInt]
    rw [if_neg (by omega), if_neg (by omega)]
  cases v with
  | ofNat n =>
    obtain ⟨k1, k2, k3⟩ := key n
    have : (insertInt (Int.ofNat n)).data = Nat.toDigits 10 n := rfl
    rw [this, (extractInt_digits _ old k1 k2).1, k3]
    exact hclamp
  | negSucc n =>
    obtain ⟨k1, k2, k3⟩ := key (n + 1)
    have : (insertInt (Int.negSucc n)).data = '-' :: Nat.toDigits 10 (n + 1) := rfl
    rw [this, (extractInt_digits _ old k1 k2).2, k3]
    have : -((n + 1 : Nat) : Int) = Int.negSucc n := by
      rw [Int.negSucc_eq]; push_cast; ring
    rw [this]
    exact hclamp

/-! ## Issuing order ids -/

theorem wrapInt_of_range (x : Int) (h1 : INT_MIN ≤ x) (h2 : x ≤ INT_MAX) : wrapInt x = x := by
  simp only [INT_MIN, INT_MAX] at h1 h2
  simp only [wrapInt]
  omega

theorem wrapInt_range (x : Int) : INT_MIN ≤ wrapInt x ∧ wrapInt x ≤ INT_MAX := by
  simp only [INT_MIN, INT_MAX, wrapInt]
  omega

theorem wrapInt_succ_wrapInt (x : Int) : wrapInt (wrapInt x + 1) = wrapInt (x + 1) := by
  simp only [wrapInt]
  omega

theorem loadLastOrderId_of_holds (s : State) (v : Int) (h : holdsValue s.disk v)
    (h1 : INT_MIN ≤ v) (h2 : v ≤ INT_MAX) :
    loadLastOrderId s = { s with manager := { s.manager with lastOrderId := v } } := by
  obtain ⟨hc, hr⟩ := h
  simp only [loadLastOrderId, hc, hr, if_true, extractInt_insertInt v _ h1 h2]

/-- One call of `getNextOrderId` against a store that holds `v`. -/
theorem getNextOrderId_of_holds (s : State) (v : Int) (h : holdsValue s.disk v)
    (h1 : INT_MIN ≤ v) (h2 : v ≤ INT_MAX) :
    getNextOrderId s =
      (wrapInt (v + 1),
        saveLastOrderId { s with manager := { s.manager with lastOrderId := wrapInt (v + 1) } }) := by
  simp only [getNextOrderId, loadLastOrderId_of_holds s v h h1 h2]
  simp [saveLastOrderId]
  split <;> rfl


theorem getNextOrderId_writable (s : State) (v : Int) (h : holdsValue s.disk v)
    (h1 : INT_MIN ≤ v) (h2 : v < INT_MAX) (hw : s.disk.orderId.writable = true) :
    (getNextOrderId s).1 = v + 1 ∧ holdsValue (getNextOrderId s).2.disk (v + 1) ∧
      (getNextOrderId s).2.disk.orderId.writable = true := by
  have hwrap : wrapInt (v + 1) = v + 1 :=
    wrapInt_of_range _ (by simp only [INT_MIN] at *; omega) (by simp only [INT_MAX] at *; omega)
  rw [getNextOrderId_of_holds s v h h1 (le_of_lt h2), hwrap]
  obtain ⟨_, hr⟩ := h
  simp [saveLastOrderId, hw, holdsValue, hr]

theorem getNextOrderIds_spec (N : Nat) : ∀ (s : State) (v : Int), 0 ≤ v → v + N ≤ INT_MAX →
    holdsValue s.disk v → s.disk.orderId.writable = true →
    (getNextOrderIds N s).1 = (List.range N).map (fun (k : Nat) => v + 1 + (k : Int)) ∧
      holdsValue (getNextOrderIds N s).2.disk (v + N) ∧
      (getNextOrderIds N s).2.disk.orderId.writable = true := by
  induction N with
  | zero => intro s v _ _ h hw; simpa [getNextOrderIds] using ⟨h, hw⟩
  | succ n ih =>
    intro s v hv hN h hw
    have hN' : v + 1 + (n : Int) ≤ INT_MAX := by push_cast at hN; omega
    obtain ⟨e1, e2, e3⟩ := getNextOrderId_writable s v h
      (by simp only [INT_MIN]; omega) (by push_cast at hN; omega) hw
    obtain ⟨i1, i2, i3⟩ := ih (getNextOrderId s).2 (v + 1) (by omega) hN' e2 e3
    simp only [getNextOrderIds, i1, e1]
    refine ⟨?_, ?_, i3⟩
    · rw [List.range_succ_eq_map, List.map_cons, List.map_map]
      simp only [Nat.cast_zero, add_zero, List.cons.injEq, true_and]
      apply List.map_congr_left
      intro k _
      simp only [Function.comp, Nat.succ_eq_add_one]
      push_cast
      ring
    · have : v + ((n + 1 : Nat) : Int) = v + 1 + n := by push_cast; ring
      rw [this]; exact i2

/-- C1 (amended).  Against a readable and writable counter file that holds `v`, with
`0 ≤ v` and `v + N` within the range of `int`, `N` successive calls of `getNextOrderId`
return `v + 1, …, v + N` (strictly increasing, pairwise distinct), and after the `k`-th call
the file holds `v + k`.  The member `lastOrderId` of the starting state is arbitrary, so the
same holds for a generator that has just been restarted. -/
theorem getNextOrderId_sequence (s : State) (v : Int) (N : Nat) (hv : 0 ≤ v)
    (hN : v + N ≤ INT_MAX) (hold : holdsValue s.disk v)
    (hw : s.disk.orderId.writable = true) :
    (getNextOrderIds N s).1 = (List.range N).map (fun (k : Nat) => v + 1 + (k : Int)) ∧
      (getNextOrderIds N s).1.Pairwise (fun a b => a < b) ∧
      (getNextOrderIds N s).1.Nodup ∧
      ∀ k : Nat, k ≤ N → holdsValue (getNextOrderIds k s).2.disk (v + k) := by
  have hids := (getNextOrderIds_spec N s v hv hN hold hw).1
  have hpair : (getNextOrderIds N s).1.Pairwise (fun a b => a < b) := by
    rw [hids, List.pairwise_map]
    refine (List.pairwise_lt_range N).imp ?_
    intro a b hab
    have : (a : Int) < b := by exact_mod_cast hab
    omega
  refine ⟨hids, hpair, hpair.imp (fun h => ne_of_lt h), ?_⟩
  intro k hk
  have hk' : v + (k : Int) ≤ INT_MAX := by
    have : (k : Int) ≤ N := by exact_mod_cast hk
    omega
  exact (getNextOrderIds_spec k s v hv hk' hold hw).2.1

/-- C1, witness: a restarted generator (junk in `lastOrderId`) against a store left at `5`. -/
theorem getNextOrderId_sequence_witness :
    (getNextOrderIds 1 (startState 12345 (diskWith (some "5") true))).1 = [6] ∧
      (getNextOrderIds 3 (startState 12345 (diskWith (some "5") true))).1 = [6, 7, 8] ∧
      holdsValue (getNextOrderIds 3 (startState 12345 (diskWith (some "5") true))).2.disk 8 := by
  have h1 := getNextOrderId_sequence (startState 12345 (diskWith (some "5") true)) 5 1
    (by decide) (by decide) (by decide) rfl
  have h3 := getNextOrderId_sequence (startState 12345 (diskWith (some "5") true)) 5 3
    (by decide) (by decide) (by decide) rfl
  exact ⟨h1.1, h3.1, h3.2.2.2 3 (le_refl 3)⟩

/-- C1, counterexample.  A store holding `2147483647`: the call returns `-2147483648`, not
`v + 1`.  A store holding `5` that cannot be opened for writing: two calls return `6` and
`6`, and the file still holds `5`. -/
theorem getNextOrderId_sequence_counterexample :
    (holdsValue (diskWith (some "2147483647") true) 2147483647 ∧
      (getNextOrderIds 1 (startState 0 (diskWith (some "2147483647") true))).1
        = [-2147483648] ∧
      (getNextOrderIds 1 (startState 0 (diskWith (some "2147483647") true))).1
        ≠ [2147483647 + 1]) ∧
    (holdsValue (diskWith (some "5") false) 5 ∧
      (getNextOrderIds 2 (startState 0 (diskWith (some "5") false))).1 = [6, 6] ∧
      holdsValue (getNextOrderIds 2 (startState 0 (diskWith (some "5") false))).2.disk 5) := by
  decide

/-! ## Missing, unreadable and empty counter files -/

/-- A counter file that does not exist, or cannot be opened for reading, is read as `0`:
`getNextOrderId` returns `1` whatever `lastOrderId` held, and stores `1` when it can write. -/
theorem getNextOrderId_unreadable (s : State)
    (h : s.disk.orderId.content = none ∨ s.disk.orderId.readable = false) :
    getNextOrderId s =
      (1, saveLastOrderId { s with manager := { s.manager with lastOrderId := 1 } }) := by
  have hload : loadLastOrderId s = { s with manager := { s.manager with lastOrderId := 0 } } := by
    unfold loadLastOrderId
    rcases h with h | h
    · simp [h]
    · cases hc : s.disk.orderId.content <;> simp [h]
  have hw : wrapInt (0 + 1) = 1 := by decide
  simp only [getNextOrderId, hload, hw]
  simp [saveLastOrderId]
  split <;> rfl

/-- Text that does not start with a number (after white space, no digit follows the optional
sign) is read as `0`: `getNextOrderId` returns `1` whatever `lastOrderId` held. -/
theorem getNextOrderId_not_a_number (s : State) (text : String) (c : Char) (cs : List Char)
    (hc : s.disk.orderId.content = some text) (hr : s.disk.orderId.readable = true)
    (hfirst : text.data.dropWhile isSpace = c :: cs)
    (hnodigit : (if c = '-' || c = '+' then cs else c :: cs).takeWhile isDigit = []) :
    (getNextOrderId s).1 = 1 := by
  have hx : extractInt text.data s.manager.lastOrderId = 0 := by
    simp only [extractInt, hfirst, hnodigit, if_true]
  have hw : wrapInt (0 + 1) = 1 := by decide
  simp only [getNextOrderId, loadLastOrderId, hc, hr, if_true, hx, hw, saveLastOrderId]
  split <;> rfl

/-- C2, the failing input.  The counter file exists and is empty, `lastOrderId` holds `7`:
the extraction stops at the end of the file without storing anything, so `getNextOrderId`
returns `8` and writes `8`, where the persisted value should have counted as `0`.  With
non-numeric text or without a file the same call returns `1`. -/
theorem getNextOrderId_empty_file :
    (getNextOrderId (startState 7 (diskWith (some "") true))).1 = 8 ∧
      (getNextOrderId (startState 7 (diskWith (some "") true))).2.disk.orderId.content
        = some "8" ∧
      (getNextOrderId (startState 7 (diskWith (some " \n") true))).1 = 8 ∧
      (getNextOrderId (startState 7 (diskWith (some "abc") true))).1 = 1 ∧
      (getNextOrderId (startState 7 (diskWith none true))).1 = 1 ∧
      (getNextOrderId (startState 7 (diskWith none true))).2.disk.orderId.content
        = some "1" := by
  decide

/-! ## Frame properties and the shape of a checkout -/

theorem loadLastOrderId_frame (s : State) :
    (loadLastOrderId s).disk = s.disk ∧ (loadLastOrderId s).cart = s.cart ∧
      (loadLastOrderId s).manager.orders = s.manager.orders ∧
      (loadLastOrderId s).paymentContext = s.paymentContext := by
  unfold loadLastOrderId
  split
  · split <;> simp
  · simp

theorem saveLastOrderId_frame (s : State) :
    (saveLastOrderId s).manager = s.manager ∧ (saveLastOrderId s).cart = s.cart ∧
      (saveLastOrderId s).paymentContext = s.paymentContext ∧
      (saveLastOrderId s).disk.orderLogs = s.disk.orderLogs ∧
      (saveLastOrderId s).disk.orderId.readable = s.disk.orderId.readable ∧
      (saveLastOrderId s).disk.orderId.writable = s.disk.orderId.writable := by
  unfold saveLastOrderId
  split <;> simp

theorem saveLastOrderId_unwritable (s : State) (h : s.disk.orderId.writable = false) :
    saveLastOrderId s = s := by
  simp [saveLastOrderId, h]

/-- What `getNextOrderId` leaves alone: the cart, the stored orders, the payment context, the
log, and the access flags of the counter file; the id it returns is the new `lastOrderId`. -/
theorem getNextOrderId_frame (s : State) :
    (getNextOrderId s).2.cart = s.cart ∧
      (getNextOrderId s).2.manager.orders = s.manager.orders ∧
      (getNextOrderId s).2.paymentContext = s.paymentContext ∧
      (getNextOrderId s).2.disk.orderLogs = s.disk.orderLogs ∧
      (getNextOrderId s).2.disk.orderId.readable = s.disk.orderId.readable ∧
      (getNextOrderId s).2.disk.orderId.writable = s.disk.orderId.writable ∧
      (getNextOrderId s).2.manager.lastOrderId = (getNextOrderId s).1 := by
  obtain ⟨l1, l2, l3, l4⟩ := loadLastOrderId_frame s
  simp only [getNextOrderId]
  generalize hs2 : ({ loadLastOrderId s with manager := { (loadLastOrderId s).manager with
    lastOrderId := wrapInt ((loadLastOrderId s).manager.lastOrderId + 1) } } : State) = s2
  obtain ⟨v1, v2, v3, v4, v5, v6⟩ := saveLastOrderId_frame s2
  subst hs2
  simp_all

theorem addOrder_frame (s : State) (o : Order) :
    (addOrder s o).cart = s.cart ∧ (addOrder s o).paymentContext = s.paymentContext ∧
      (addOrder s o).disk.orderId = s.disk.orderId ∧
      (addOrder s o).manager.lastOrderId = s.manager.lastOrderId ∧
      (addOrder s o).disk.orderLogs.writable = s.disk.orderLogs.writable := by
  unfold addOrder
  split
  · simp only
    split <;> simp
  · simp

theorem foldl_addItem_orderId (cart : List CartItem) : ∀ o : Order,
    (cart.foldl Order.addItem o).orderId = o.orderId ∧
      (cart.foldl Order.addItem o).paymentMethod = o.paymentMethod := by
  induction cart with
  | nil => intro o; simp
  | cons item rest ih =>
    intro o
    rw [List.foldl_cons]
    exact ih (o.addItem item)

theorem buildOrder_orderId (id : Int) (cart : List CartItem) (label : String) :
    (buildOrder id cart label).orderId = id ∧ (buildOrder id cart label).paymentMethod = label := by
  have h := (foldl_addItem_orderId cart (Order.new id)).1
  simp only [buildOrder, Order.setPaymentMethod, h, and_self]
  simp [Order.new]

theorem foldl_addItem_items (cart : List CartItem) : ∀ o : Order,
    o.itemCount = (o.items.length : Int) → o.items.length + cart.length ≤ 20 →
    (cart.foldl Order.addItem o).items = o.items ++ cart ∧
      (cart.foldl Order.addItem o).itemCount = ((o.items.length + cart.length : Nat) : Int) := by
  induction cart with
  | nil => intro o h _; simp [h]
  | cons item rest ih =>
    intro o h hlen
    simp only [List.length_cons] at hlen
    have hlt : o.itemCount < 20 := by omega
    have hw : wrapInt (o.itemCount + 1) = o.itemCount + 1 :=
      wrapInt_of_range _ (by simp only [INT_MIN]; omega) (by simp only [INT_MAX]; omega)
    have hstep : o.addItem item =
        { o with items := o.items ++ [item], itemCount := o.itemCount + 1 } := by
      simp [Order.addItem, hlt, hw]
    obtain ⟨i1, i2⟩ := ih (o.addItem item) (by rw [hstep]; simp [h]) (by rw [hstep]; simp; omega)
    rw [List.foldl_cons, i1, i2, hstep]
    simp
    omega

/-- An order built from a cart of at most 20 lines carries exactly the cart's lines. -/
theorem buildOrder_items (id : Int) (cart : List CartItem) (label : String)
    (h : cart.length ≤ 20) :
    (buildOrder id cart label).items = cart ∧
      (buildOrder id cart label).itemCount = (cart.length : Int) := by
  obtain ⟨i1, i2⟩ := foldl_addItem_items cart (Order.new id) (by simp [Order.new])
    (by simpa [Order.new] using h)
  simp only [buildOrder, Order.setPaymentMethod, i1, i2]
  simp [Order.new]

/-- The run of `checkout` for an accepted payment choice. -/
theorem checkoutWith_valid (c : Int) (s : State) (st : PaymentStrategy)
    (h : selectStrategy c = some st) :
    checkoutWith c s =
      ({ addOrder (getNextOrderId { s with paymentContext := { strategy := some st } }).2
            (buildOrder (getNextOrderId { s with paymentContext := { strategy := some st } }).1
              s.cart (st.pay (totalAmount s.cart))) with cart := [] },
        { totalAmount := totalAmount s.cart,
          newOrder := some (buildOrder
            (getNextOrderId { s with paymentContext := { strategy := some st } }).1
            s.cart (st.pay (totalAmount s.cart))) }) := by
  have hc := (getNextOrderId_frame { s with paymentContext := { strategy := some st } }).1
  simp only [checkoutWith, h, PaymentContext.setStrategy]
  simp only [hc]

theorem selectStrategy_valid (c : Int) (h : c = 1 ∨ c = 2 ∨ c = 3) :
    ∃ st, selectStrategy c = some st := by
  rcases h with rfl | rfl | rfl <;> exact ⟨_, rfl⟩

/-! ## An unavailable counter file -/

/-- The counter store is unavailable while the code takes its persisted value to be `v`:
either the file holds `v` but cannot be opened for writing, or it cannot be opened for
reading (and `v = 0`). -/
theorem checkoutWith_unavailable_step (s : State) (c : Int) (v : Int)
    (hc : c = 1 ∨ c = 2 ∨ c = 3)
    (hfail : (holdsValue s.disk v ∧ INT_MIN ≤ v ∧ v < INT_MAX ∧
        s.disk.orderId.writable = false) ∨ (s.disk.orderId.readable = false ∧ v = 0)) :
    (∃ o, (checkoutWith c s).2.newOrder = some o ∧ o.orderId = v + 1) ∧
      (checkoutWith c s).1.cart = [] ∧
      (s.disk.orderId.writable = false → (checkoutWith c s).1.disk.orderId = s.disk.orderId) ∧
      (checkoutWith c s).1.disk.orderId.readable = s.disk.orderId.readable ∧
      (checkoutWith c s).1.disk.orderId.writable = s.disk.orderId.writable := by
  obtain ⟨st, hst⟩ := selectStrategy_valid c hc
  rw [checkoutWith_valid c s st hst]
  generalize hs1 : ({ s with paymentContext := { strategy := some st } } : State) = s1
  have hd : s1.disk = s.disk := by subst hs1; rfl
  obtain ⟨_, _, _, _, g5, g6, _⟩ := getNextOrderId_frame s1
  have hid : (getNextOrderId s1).1 = v + 1 := by
    rcases hfail with ⟨hold, h1, h2, _⟩ | ⟨hr, hv⟩
    · rw [getNextOrderId_of_holds s1 v (hd ▸ hold) h1 (le_of_lt h2)]
      exact wrapInt_of_range _ (by simp only [INT_MIN] at *; omega)
        (by simp only [INT_MAX] at *; omega)
    · rw [getNextOrderId_unreadable s1 (Or.inr (hd ▸ hr)), hv]; rfl
  have hkeep : s.disk.orderId.writable = false →
      (getNextOrderId s1).2.disk.orderId = s.disk.orderId := by
    intro hw
    have hw1 : (loadLastOrderId s1).disk.orderId.writable = false := by
      rw [(loadLastOrderId_frame s1).1, hd]; exact hw
    simp only [getNextOrderId]
    rw [saveLastOrderId_unwritable _ (by simpa using hw1)]
    simp only [(loadLastOrderId_frame s1).1, hd]
  generalize hord : buildOrder (getNextOrderId s1).1 s.cart (st.pay (totalAmount s.cart)) = o
  obtain ⟨_, _, a3, _, _⟩ := addOrder_frame (getNextOrderId s1).2 o
  refine ⟨⟨o, rfl, ?_⟩, rfl, ?_, ?_, ?_⟩
  · rw [← hord, (buildOrder_orderId _ _ _).1, hid]
  · intro hw; simp only [a3, hkeep hw]
  · simp only [a3, g5, hd]
  · simp only [a3, g6, hd]

/-- C3 (amended).  A counter file that cannot be written (or read) does not stop a checkout.
With an accepted payment choice, when the file holds `v` (`v + 1` within the range of `int`)
and cannot be opened for writing, or cannot be opened for reading (it then counts as
`v = 0`): the checkout constructs an order with id `v + 1` and clears the cart; an
unwritable file is left as it was; and the next checkout, of any cart `cart2`, constructs an
order with the same id `v + 1`. -/
theorem checkout_counter_unavailable (s : State) (c c2 : Int) (v : Int)
    (cart2 : List CartItem) (hc : c = 1 ∨ c = 2 ∨ c = 3) (hc2 : c2 = 1 ∨ c2 = 2 ∨ c2 = 3)
    (hfail : (holdsValue s.disk v ∧ INT_MIN ≤ v ∧ v < INT_MAX ∧
        s.disk.orderId.writable = false) ∨ (s.disk.orderId.readable = false ∧ v = 0)) :
    (∃ o, (checkoutWith c s).2.newOrder = some o ∧ o.orderId = v + 1) ∧
      (checkoutWith c s).1.cart = [] ∧
      (s.disk.orderId.writable = false → (checkoutWith c s).1.disk.orderId = s.disk.orderId) ∧
      (∃ o, (checkoutWith c2 { (checkoutWith c s).1 with cart := cart2 }).2.newOrder = some o ∧
        o.orderId = v + 1) := by
  obtain ⟨h1, h2, h3, h4, h5⟩ := checkoutWith_unavailable_step s c v hc hfail
  refine ⟨h1, h2, h3, ?_⟩
  refine (checkoutWith_unavailable_step _ c2 v hc2 ?_).1
  rcases hfail with ⟨hold, r1, r2, hw⟩ | ⟨hr, hv⟩
  · left
    refine ⟨?_, r1, r2, ?_⟩
    · show holdsValue (checkoutWith c s).1.disk v
      unfold holdsValue
      rw [h3 hw]; exact hold
    · show (checkoutWith c s).1.disk.orderId.writable = false
      rw [h5]; exact hw
  · right
    refine ⟨?_, hv⟩
    show (checkoutWith c s).1.disk.orderId.readable = false
    rw [h4]; exact hr

/-- C3, witness: the counter file holds `5` and is read-only; paper is checked out with Cash,
then pencil with Card. -/
theorem checkout_counter_unavailable_witness :
    (∃ o, (checkoutWith 1 { startState 0 (diskWith (some "5") false) with
        cart := addProduct [] paper }).2.newOrder = some o ∧ o.orderId = 5 + 1) ∧
      (∃ o, (checkoutWith 2 { (checkoutWith 1 { startState 0 (diskWith (some "5") false) with
        cart := addProduct [] paper }).1 with cart := addProduct [] pencil }).2.newOrder = some o ∧
        o.orderId = 5 + 1) := by
  have h := checkout_counter_unavailable
    { startState 0 (diskWith (some "5") false) with cart := addProduct [] paper } 1 2 5
    (addProduct [] pencil) (by decide) (by decide) (Or.inl (by decide))
  exact ⟨h.1, h.2.2.2⟩

/-- C3, counterexample.  The counter file holds `5` and cannot be opened for writing.  The
checkout of one paper with Cash does not fail: it constructs and stores order `6`, clears the
cart and leaves `5` in the file; the following checkout of one pencil receives `6` again. -/
theorem checkout_counter_unavailable_counterexample :
    ((checkoutWith 1 { startState 0 (diskWith (some "5") false) with
        cart := addProduct [] paper }).2.newOrder).map (fun o => o.orderId) = some 6 ∧
      ((checkoutWith 1 { startState 0 (diskWith (some "5") false) with
        cart := addProduct [] paper }).1.manager.orders).map (fun o => o.orderId) = [6] ∧
      (checkoutWith 1 { startState 0 (diskWith (some "5") false) with
        cart := addProduct [] paper }).1.cart = [] ∧
      (checkoutWith 1 { startState 0 (diskWith (some "5") false) with
        cart := addProduct [] paper }).1.disk.orderId.content = some "5" ∧
      ((checkoutWith 2 { (checkoutWith 1 { startState 0 (diskWith (some "5") false) with
        cart := addProduct [] paper }).1 with cart := addProduct [] pencil }).2.newOrder).map
          (fun o => o.orderId) = some 6 := by
  decide!

/-! ## The cart -/

theorem firstOccurrences_nil : firstOccurrences [] = [] := rfl

theorem mem_firstOccurrences (ids : List String) (x : String) :
    x ∈ firstOccurrences ids ↔ x ∈ ids := by
  simp [firstOccurrences]

theorem firstOccurrences_snoc (ids : List String) (x : String) :
    firstOccurrences (ids ++ [x]) =
      if x ∈ ids then firstOccurrences ids else firstOccurrences ids ++ [x] := by
  unfold firstOccurrences
  rw [List.reverse_append, List.reverse_singleton, List.singleton_append]
  by_cases h : x ∈ ids
  · rw [if_pos h, List.dedup_cons_of_mem (List.mem_reverse.2 h)]
  · rw [if_neg h, List.dedup_cons_of_not_mem (fun h' => h (List.mem_reverse.1 h')),
      List.reverse_cons]

theorem firstOccurrences_nodup (ids : List String) : (firstOccurrences ids).Nodup := by
  unfold firstOccurrences
  exact List.nodup_reverse.2 (List.nodup_dedup _)

theorem firstOccurrences_length (ids : List String) :
    (firstOccurrences ids).length = ids.toFinset.card := by
  unfold firstOccurrences
  rw [List.length_reverse, ← List.card_toFinset, List.toFinset_reverse]

theorem incrementFirst_none (pid : String) (cart : List CartItem) :
    incrementFirst pid cart = none ↔ pid ∉ cart.map (fun item => item.product.id) := by
  induction cart with
  | nil => simp [incrementFirst]
  | cons item rest ih =>
    unfold incrementFirst
    by_cases h : item.product.id = pid
    · simp [h]
    · simp [h, ih, Ne.symm h]

theorem incrementFirst_some (pid : String) (cart cart1 : List CartItem)
    (h : incrementFirst pid cart = some cart1) :
    cart1.map (fun item => item.product.id) = cart.map (fun item => item.product.id) ∧
      quantityOf cart1 pid = (quantityOf cart pid).map (fun q => wrapInt (q + 1)) ∧
      ∀ x, x ≠ pid → quantityOf cart1 x = quantityOf cart x := by
  induction cart generalizing cart1 with
  | nil => simp [incrementFirst] at h
  | cons item rest ih =>
    unfold incrementFirst at h
    by_cases hid : item.product.id = pid
    · simp only [hid, if_true, Option.some.injEq] at h
      subst h
      refine ⟨by simp [CartItem.incrementQuantity], ?_, ?_⟩
      · simp [quantityOf, List.find?, CartItem.incrementQuantity, hid]
      · intro x hx
        have : ¬ pid = x := fun e => hx e.symm
        simp [quantityOf, List.find?, CartItem.incrementQuantity, hid, this]
    · simp only [hid, if_false] at h
      cases hr : incrementFirst pid rest with
      | none => simp [hr] at h
      | some r =>
        simp only [hr, Option.map_some', Option.some.injEq] at h
        subst h
        obtain ⟨i1, i2, i3⟩ := ih r hr
        refine ⟨by simp [i1], ?_, ?_⟩
        · simpa [quantityOf, List.find?, hid] using i2
        · intro x hx
          by_cases hx2 : item.product.id = x
          · simp [quantityOf, List.find?, hx2]
          · simpa [quantityOf, List.find?, hx2] using i3 x hx

theorem quantityOf_append_new (cart : List CartItem) (p : Product)
    (h : p.id ∉ cart.map (fun item => item.product.id)) :
    quantityOf (cart ++ [{ product := p, quantity := 1 }]) p.id = some 1 ∧
      ∀ x, x ≠ p.id → quantityOf (cart ++ [{ product := p, quantity := 1 }]) x
        = quantityOf cart x := by
  induction cart with
  | nil =>
    refine ⟨by simp [quantityOf, List.find?], ?_⟩
    intro x hx
    have : ¬ p.id = x := fun e => hx e.symm
    simp [quantityOf, List.find?, this]
  | cons item rest ih =>
    have hne : ¬ item.product.id = p.id := by
      intro e; apply h; simp [e]
    have hrest : p.id ∉ rest.map (fun item => item.product.id) := by
      intro e; apply h; simp only [List.map_cons, List.mem_cons]; exact Or.inr e
    obtain ⟨i1, i2⟩ := ih hrest
    refine ⟨by simpa [quantityOf, List.find?, hne] using i1, ?_⟩
    intro x hx
    by_cases hx2 : item.product.id = x
    · simp [quantityOf, List.find?, hx2]
    · simpa [quantityOf, List.find?, hx2] using i2 x hx

theorem quantityOf_none (cart : List CartItem) (x : String)
    (h : x ∉ cart.map (fun item => item.product.id)) : quantityOf cart x = none := by
  induction cart with
  | nil => simp [quantityOf]
  | cons item rest ih =>
    have hne : ¬ item.product.id = x := by
      intro e; apply h; simp [e]
    have hrest : x ∉ rest.map (fun item => item.product.id) := by
      intro e; apply h; simp only [List.map_cons, List.mem_cons]; exact Or.inr e
    simpa [quantityOf, List.find?, hne] using ih hrest



/-- The cart after a sequence of `addProduct` calls with at most 20 distinct product ids: the
lines are the distinct ids in order of first occurrence, and each quantity is the number of
additions of the id, reduced to the range of `int`. -/
theorem addProduct_foldl_spec (ps : List Product) :
    (firstOccurrences (ps.map (fun p => p.id))).length ≤ 20 →
    (ps.foldl addProduct []).map (fun item => item.product.id)
        = firstOccurrences (ps.map (fun p => p.id)) ∧
      ∀ x, x ∈ ps.map (fun p => p.id) →
        quantityOf (ps.foldl addProduct []) x
          = some (wrapInt (((ps.map (fun p => p.id)).count x : Nat) : Int)) := by
  induction ps using List.reverseRecOn with
  | nil => intro _; simp [firstOccurrences_nil]
  | append_singleton qs p ih =>
    intro hcap
    rw [List.map_append, List.map_singleton, firstOccurrences_snoc] at hcap
    rw [List.foldl_append, List.foldl_cons, List.foldl_nil, List.map_append, List.map_singleton,
      firstOccurrences_snoc]
    generalize hcart : qs.foldl addProduct [] = cart at ih
    generalize hids : qs.map (fun p => p.id) = ids at ih hcap
    by_cases hmem : p.id ∈ ids
    · rw [if_pos hmem] at hcap ⊢
      obtain ⟨i1, i2⟩ := ih hcap
      have hin : p.id ∈ cart.map (fun item => item.product.id) := by
        rw [i1]; exact (mem_firstOccurrences _ _).2 hmem
      cases hinc : incrementFirst p.id cart with
      | none => exact absurd hin ((incrementFirst_none _ _).1 hinc)
      | some cart1 =>
        obtain ⟨j1, j2, j3⟩ := incrementFirst_some _ _ _ hinc
        simp only [addProduct, hinc]
        refine ⟨j1.trans i1, ?_⟩
        intro x hx
        by_cases hxp : x = p.id
        · subst hxp
          rw [j2, i2 _ hmem, Option.map_some', wrapInt_succ_wrapInt]
          simp [List.count_append]
        · rw [j3 x hxp]
          have hx' : x ∈ ids := by
            rcases List.mem_append.1 hx with h | h
            · exact h
            · exact absurd (List.mem_singleton.1 h) hxp
          rw [i2 x hx']
          have : ¬ p.id = x := fun e => hxp e.symm
          simp [List.count_append, List.count_singleton, this]
    · rw [if_neg hmem] at hcap ⊢
      rw [List.length_append, List.length_singleton] at hcap
      obtain ⟨i1, i2⟩ := ih (by omega)
      have hnin : p.id ∉ cart.map (fun item => item.product.id) := by
        rw [i1]; exact fun h => hmem ((mem_firstOccurrences _ _).1 h)
      have hlen : cart.length < 20 := by
        have : cart.length = (firstOccurrences ids).length := by
          rw [← i1, List.length_map]
        omega
      obtain ⟨k1, k2⟩ := quantityOf_append_new cart p hnin
      simp only [addProduct, (incrementFirst_none _ _).2 hnin, hlen, if_true]
      refine ⟨by simp [i1], ?_⟩
      intro x hx
      by_cases hxp : x = p.id
      · subst hxp
        rw [k1]
        have : List.count p.id ids = 0 := List.count_eq_zero.2 hmem
        simp [List.count_append, this]
        decide
      · rw [k2 x hxp]
        have hx' : x ∈ ids := by
          rcases List.mem_append.1 hx with h | h
          · exact h
          · exact absurd (List.mem_singleton.1 h) hxp
        rw [i2 x hx']
        have : ¬ p.id = x := fun e => hxp e.symm
        simp [List.count_append, List.count_singleton, this]



/-- C4 (amended).  For every finite sequence of `addProduct` calls from the empty cart that
has at most 20 distinct product ids: the number of cart lines is the number of distinct ids,
the lines appear in order of first insertion, and the line of every id that was added at most
`2147483647` times carries the number of times it was added. -/
theorem addProduct_sequence (ps : List Product)
    (hcap : (ps.map (fun p => p.id)).toFinset.card ≤ 20) :
    (ps.foldl addProduct []).length = (ps.map (fun p => p.id)).toFinset.card ∧
      (ps.foldl addProduct []).map (fun item => item.product.id)
        = firstOccurrences (ps.map (fun p => p.id)) ∧
      ∀ p ∈ ps, (ps.map (fun p => p.id)).count p.id ≤ 2147483647 →
        quantityOf (ps.foldl addProduct []) p.id
          = some (((ps.map (fun p => p.id)).count p.id : Nat) : Int) := by
  have hcap' : (firstOccurrences (ps.map (fun p => p.id))).length ≤ 20 := by
    rw [firstOccurrences_length]; exact hcap
  obtain ⟨h1, h2⟩ := addProduct_foldl_spec ps hcap'
  refine ⟨?_, h1, ?_⟩
  · rw [← firstOccurrences_length, ← h1, List.length_map]
  · intro p hp hcount
    rw [h2 p.id (List.mem_map_of_mem _ hp), wrapInt_of_range _ (by simp only [INT_MIN]; omega)
      (by simp only [INT_MAX]; omega)]

/-- C4, witness: paper, pencil, paper. -/
theorem addProduct_sequence_witness :
    ([paper, pencil, paper].foldl addProduct []).length = 2 ∧
      ([paper, pencil, paper].foldl addProduct []).map (fun item => item.product.id)
        = ["QWE", "ASD"] ∧
      quantityOf ([paper, pencil, paper].foldl addProduct []) "QWE" = some 2 ∧
      quantityOf ([paper, pencil, paper].foldl addProduct []) "ASD" = some 1 := by
  have h := addProduct_sequence [paper, pencil, paper] (by decide!)
  have e1 : ([paper, pencil, paper].map (fun p => p.id)).toFinset.card = 2 := by decide!
  have e2 : firstOccurrences ([paper, pencil, paper].map (fun p => p.id)) = ["QWE", "ASD"] := by
    decide!
  have q1 := h.2.2 paper (by decide!) (by decide!)
  have q2 := h.2.2 pencil (by decide!) (by decide!)
  have c1 : ([paper, pencil, paper].map (fun p => p.id)).count paper.id = 2 := by decide!
  have c2 : ([paper, pencil, paper].map (fun p => p.id)).count pencil.id = 1 := by decide!
  rw [c1] at q1
  rw [c2] at q2
  exact ⟨h.1.trans e1, h.2.1.trans e2, q1, q2⟩

/-- After `2147483648` additions of paper to the empty cart the quantity on its line has
wrapped around to `-2147483648`. -/
theorem addProduct_quantity_overflow :
    quantityOf ((List.replicate 2147483648 paper).foldl addProduct []) "QWE"
      = some (-2147483648) := by
  have hids : (List.replicate 2147483648 paper).map (fun p => p.id)
      = List.replicate 2147483648 "QWE" := List.map_replicate
  have hmem : "QWE" ∈ (List.replicate 2147483648 paper).map (fun p => p.id) := by
    rw [hids]; exact List.mem_replicate.2 ⟨by norm_num, rfl⟩
  have hcap : (firstOccurrences ((List.replicate 2147483648 paper).map
      (fun p => p.id))).length ≤ 20 := by
    rw [firstOccurrences_length, hids, List.toFinset_replicate_of_ne_zero (by norm_num)]
    decide!
  rw [(addProduct_foldl_spec _ hcap).2 "QWE" hmem, hids, List.count_replicate_self]
  decide!

/-- C4, counterexample.  Twenty-one additions of twenty-one distinct products leave twenty
lines, the last product has none; and `2147483648` additions of paper leave the quantity
`-2147483648` on its line. -/
theorem addProduct_sequence_counterexample :
    (((List.range 21).map sampleProduct).map (fun p => p.id)).toFinset.card = 21 ∧
      (((List.range 21).map sampleProduct).foldl addProduct []).length = 20 ∧
      quantityOf (((List.range 21).map sampleProduct).foldl addProduct []) "20" = none ∧
      ((List.replicate 2147483648 paper).map (fun p => p.id)).count "QWE" = 2147483648 ∧
      quantityOf ((List.replicate 2147483648 paper).foldl addProduct []) "QWE"
        = some (-2147483648) := by
  refine ⟨by decide!, by decide!, by decide!, ?_, addProduct_quantity_overflow⟩
  rw [List.map_replicate]
  exact List.count_replicate_self _ _

/-! ## Rejected checkouts -/

/-- C5 (amended).  The emptiness test is in the caller: with an empty cart the cart branch of
`Store::run` (menu choice 2) does not ask for a checkout and does not call `checkout`; it
reads no input and leaves the whole state (counter file, stored orders, log, cart) as it
was. -/
theorem cartMenu_empty_cart (input : List String) (s : State) (h : s.cart = []) :
    cartMenu input s = some (s, input) := by
  simp [cartMenu, isEmpty, h]

/-- C5, witness: a freshly started store, the user would answer `Y` and `1`. -/
theorem cartMenu_empty_cart_witness :
    (startState 0 (diskWith none true)).cart = [] ∧
      cartMenu ["Y", "1"] (startState 0 (diskWith none true))
        = some (startState 0 (diskWith none true), ["Y", "1"]) :=
  ⟨rfl, cartMenu_empty_cart ["Y", "1"] (startState 0 (diskWith none true)) rfl⟩

/-- C5, counterexample.  `ShoppingCart::checkout` itself does not look at the cart: called on
the empty cart of a freshly started store with the choice `1`, it issues id `1` (the counter
file now holds `1`), stores an order without items and appends a line to the log. -/
theorem checkout_empty_cart_counterexample :
    (startState 0 (diskWith none true)).cart = [] ∧
      (checkout ["1"] (startState 0 (diskWith none true))).map
          (fun r => (r.1.disk.orderId.content, r.1.manager.orders, r.1.disk.orderLogs.lines))
        = some (some "1",
            [{ orderId := 1, items := [], itemCount := 0, paymentMethod := "Cash" }],
            ["Order ID: 1 has been successfully checked out and paid using Cash."]) := by
  decide!

/-- The final `else` of `checkout`: with a value of `paymentMethodChoice` other than 1, 2 and
3 the body returns without constructing an order and leaves the whole state as it was.
`getPaymentMethodChoice` never returns such a value (`getPaymentMethodChoice_range`), so a
run of `checkout` does not take this branch. -/
theorem checkoutWith_invalid_choice (s : State) (c : Int) (h1 : c ≠ 1) (h2 : c ≠ 2)
    (h3 : c ≠ 3) :
    (checkoutWith c s).1 = s ∧ (checkoutWith c s).2.newOrder = none ∧
      (checkoutWith c s).1.disk.orderId = s.disk.orderId ∧
      (checkoutWith c s).1.manager.orders = s.manager.orders ∧
      (checkoutWith c s).1.disk.orderLogs = s.disk.orderLogs ∧
      (checkoutWith c s).1.cart = s.cart := by
  have hsel : selectStrategy c = none := by simp [selectStrategy, h1, h2, h3]
  have hrun : checkoutWith c s = (s, { totalAmount := totalAmount s.cart, newOrder := none }) := by
    simp only [checkoutWith, hsel]
  rw [hrun]
  exact ⟨rfl, rfl, rfl, rfl, rfl, rfl⟩

/-- `getPaymentMethodChoice` only ever returns 1, 2 or 3. -/
theorem getPaymentMethodChoice_range : ∀ (input : List String) (c : Int) (rest : List String),
    getPaymentMethodChoice input = some (c, rest) → c = 1 ∨ c = 2 ∨ c = 3 := by
  intro input
  induction input with
  | nil => intro c rest h; simp [getPaymentMethodChoice] at h
  | cons line tail ih =>
    intro c rest h
    unfold getPaymentMethodChoice at h
    split at h
    · split at h
      · simp only at h
        split at h
        · exact ih c rest h
        · rename_i hnot
          simp only [Option.some.injEq, Prod.mk.injEq] at h
          obtain ⟨hc, _⟩ := h
          omega
      · exact ih c rest h
    · exact ih c rest h

/-- A line other than `1`, `2`, `3` is rejected by `getPaymentMethodChoice` and the prompt is
repeated: the checkout goes on with the remaining input, nothing has changed. -/
theorem checkout_rejected_line (line : String) (rest : List String) (s : State)
    (h1 : line ≠ "1") (h2 : line ≠ "2") (h3 : line ≠ "3") :
    checkout (line :: rest) s = checkout rest s := by
  have key : getPaymentMethodChoice (line :: rest) = getPaymentMethodChoice rest := by
    rw [getPaymentMethodChoice]
    split
    · rename_i c hc
      have hline : line = String.mk [c] := by
        cases line with
        | mk data => simp only at hc; rw [hc]
      split
      · rename_i hd
        simp only
        split
        · rfl
        · rename_i hrange
          exfalso
          simp only [isDigit, decide_eq_true_eq] at hd
          have hlo : (48 : Nat) ≤ c.toNat := hd.1
          have hval : c.toNat = 49 ∨ c.toNat = 50 ∨ c.toNat = 51 := by omega
          have hc' : c = Char.ofNat c.toNat := (Char.ofNat_toNat c).symm
          rcases hval with hv | hv | hv
          · rw [hv] at hc'; exact h1 (by rw [hline, hc'])
          · rw [hv] at hc'; exact h2 (by rw [hline, hc'])
          · rw [hv] at hc'; exact h3 (by rw [hline, hc'])
      · rfl
    · rfl
  simp only [checkout, key]

/-- A run of `checkout` that returns has constructed an order and cleared the cart: it never
returns through the final `else`. -/
theorem checkout_returns (input : List String) (s s1 : State) (r : CheckoutResult)
    (rest : List String) (h : checkout input s = some (s1, r, rest)) :
    (∃ o, r.newOrder = some o) ∧ s1.cart = [] := by
  unfold checkout at h
  cases hg : getPaymentMethodChoice input with
  | none => simp [hg] at h
  | some cr =>
    obtain ⟨c, rest0⟩ := cr
    obtain ⟨st, hst⟩ := selectStrategy_valid c (getPaymentMethodChoice_range input c rest0 hg)
    simp only [hg, Option.some.injEq, Prod.mk.injEq] at h
    obtain ⟨h1, h2, _⟩ := h
    rw [checkoutWith_valid c s st hst] at h1 h2
    subst h1
    subst h2
    exact ⟨⟨_, rfl⟩, rfl⟩

/-- C6 (amended).  A payment-method choice outside 1, 2, 3 does not abort the checkout.  For
every state (every cart) and every input line other than `1`, `2` and `3`:
`getPaymentMethodChoice` rejects the line without any effect on the state and asks again, so
the checkout continues exactly as on the remaining input; with no further input it never
returns; and whenever it returns, it has constructed an order and cleared the cart. -/
theorem checkout_invalid_choice (line : String) (rest : List String) (s : State)
    (h1 : line ≠ "1") (h2 : line ≠ "2") (h3 : line ≠ "3") :
    checkout (line :: rest) s = checkout rest s ∧
      checkout [line] s = none ∧
      ∀ (s1 : State) (r : CheckoutResult) (rest1 : List String),
        checkout (line :: rest) s = some (s1, r, rest1) →
          (∃ o, r.newOrder = some o) ∧ s1.cart = [] := by
  refine ⟨checkout_rejected_line line rest s h1 h2 h3, ?_, ?_⟩
  · rw [checkout_rejected_line line [] s h1 h2 h3]
    rfl
  · intro s1 r rest1 h
    exact checkout_returns _ s s1 r rest1 h

/-- C6, witness: the line `4`, then `1`, with two papers in the cart and `5` in the counter
file. -/
theorem checkout_invalid_choice_witness :
    checkout ["4", "1"] { startState 0 (diskWith (some "5") true) with
        cart := [paper, paper].foldl addProduct [] }
      = checkout ["1"] { startState 0 (diskWith (some "5") true) with
        cart := [paper, paper].foldl addProduct [] } ∧
    checkout ["4"] { startState 0 (diskWith (some "5") true) with
        cart := [paper, paper].foldl addProduct [] } = none :=
  ⟨(checkout_invalid_choice "4" ["1"] _ (by decide) (by decide) (by decide)).1,
    (checkout_invalid_choice "4" ["1"] _ (by decide) (by decide) (by decide)).2.1⟩

/-- C6, counterexample.  Two papers in the cart, `5` in the counter file, the user enters `4`
and then `1`: the checkout does not abort.  It issues id `6` (the file now holds `6`), stores
the order, appends a line to the log and empties the cart. -/
theorem checkout_invalid_choice_counterexample :
    ([paper, paper].foldl addProduct [] : List CartItem) ≠ [] ∧
    (checkout ["4", "1"] { startState 0 (diskWith (some "5") true) with
        cart := [paper, paper].foldl addProduct [] }).map
          (fun r => r.1.disk.orderId.content) = some (some "6") ∧
    (checkout ["4", "1"] { startState 0 (diskWith (some "5") true) with
        cart := [paper, paper].foldl addProduct [] }).map
          (fun r => r.1.manager.orders.map (fun o => o.orderId)) = some [6] ∧
    (checkout ["4", "1"] { startState 0 (diskWith (some "5") true) with
        cart := [paper, paper].foldl addProduct [] }).map
          (fun r => r.1.disk.orderLogs.lines)
      = some ["Order ID: 6 has been successfully checked out and paid using Cash."] ∧
    (checkout ["4", "1"] { startState 0 (diskWith (some "5") true) with
        cart := [paper, paper].foldl addProduct [] }).map
          (fun r => r.1.cart) = some [] := by
  decide!

/-! ## Invariants of the cart operations -/

theorem addProduct_length_le (cart : List CartItem) (p : Product) (h : cart.length ≤ 20) :
    (addProduct cart p).length ≤ 20 := by
  unfold addProduct
  cases hinc : incrementFirst p.id cart with
  | none =>
    simp only
    split
    · rw [List.length_append, List.length_singleton]; omega
    · exact h
  | some cart1 =>
    have := congrArg List.length (incrementFirst_some _ _ _ hinc).1
    simp only [List.length_map] at this
    simp only
    omega

theorem foldl_addProduct_length_le (ps : List Product) : ∀ cart : List CartItem,
    cart.length ≤ 20 → (ps.foldl addProduct cart).length ≤ 20 := by
  induction ps with
  | nil => intro cart h; exact h
  | cons p rest ih => intro cart h; exact ih _ (addProduct_length_le cart p h)

theorem addProduct_nodup (cart : List CartItem) (p : Product)
    (h : (cart.map (fun item => item.product.id)).Nodup) :
    ((addProduct cart p).map (fun item => item.product.id)).Nodup := by
  unfold addProduct
  cases hinc : incrementFirst p.id cart with
  | none =>
    simp only
    split
    · rw [List.map_append, List.map_singleton]
      exact List.Nodup.append h (List.nodup_singleton _)
        (by
          intro x hx hx'
          rw [List.mem_singleton] at hx'
          subst hx'
          exact (incrementFirst_none _ _).1 hinc hx)
    · exact h
  | some cart1 =>
    simp only
    rw [(incrementFirst_some _ _ _ hinc).1]
    exact h

theorem incrementFirst_mem (pid : String) (cart cart1 : List CartItem)
    (h : incrementFirst pid cart = some cart1) :
    ∀ item1 ∈ cart1, item1 ∈ cart ∨ ∃ item ∈ cart, item1 = item.incrementQuantity := by
  induction cart generalizing cart1 with
  | nil => simp [incrementFirst] at h
  | cons item rest ih =>
    unfold incrementFirst at h
    by_cases hid : item.product.id = pid
    · simp only [hid, if_true, Option.some.injEq] at h
      subst h
      intro item1 h1
      rcases List.mem_cons.1 h1 with rfl | h1
      · exact Or.inr ⟨item, List.mem_cons_self _ _, rfl⟩
      · exact Or.inl (List.mem_cons_of_mem _ h1)
    · simp only [hid, if_false] at h
      cases hr : incrementFirst pid rest with
      | none => simp [hr] at h
      | some r =>
        simp only [hr, Option.map_some', Option.some.injEq] at h
        subst h
        intro item1 h1
        rcases List.mem_cons.1 h1 with rfl | h1
        · exact Or.inl (List.mem_cons_self _ _)
        · rcases ih r hr item1 h1 with h2 | ⟨it, h2, h3⟩
          · exact Or.inl (List.mem_cons_of_mem _ h2)
          · exact Or.inr ⟨it, List.mem_cons_of_mem _ h2, h3⟩

theorem addProduct_quantity (cart : List CartItem) (p : Product) (k : Int)
    (hk : 0 ≤ k ∧ k < INT_MAX) (h : ∀ item ∈ cart, 1 ≤ item.quantity ∧ item.quantity ≤ k) :
    ∀ item ∈ addProduct cart p, 1 ≤ item.quantity ∧ item.quantity ≤ k + 1 := by
  unfold addProduct
  cases hinc : incrementFirst p.id cart with
  | none =>
    simp only
    split
    · intro item hitem
      rcases List.mem_append.1 hitem with h1 | h1
      · have := h item h1; omega
      · rw [List.mem_singleton] at h1
        subst h1
        simp only
        omega
    · intro item hitem
      have := h item hitem; omega
  | some cart1 =>
    simp only
    intro item1 h1
    rcases incrementFirst_mem _ _ _ hinc item1 h1 with h2 | ⟨item, h2, h3⟩
    · have := h item1 h2; omega
    · have hq := h item h2
      subst h3
      have hw : wrapInt (item.quantity + 1) = item.quantity + 1 :=
        wrapInt_of_range _ (by simp only [INT_MIN]; omega)
          (by simp only [INT_MAX] at *; omega)
      simp only [CartItem.incrementQuantity, hw]
      omega

/-! ## The order constructed by a checkout -/

/-- C7 (amended).  For every cart reachable by `addProduct` calls, every accepted payment
choice (with its strategy `st`) and every counter file that holds `v` with `v + 1` within the
range of `int` (a missing file counts as `v = 0`): `checkout` constructs an order whose id is
`v + 1`, whose payment method is the label returned by `st.pay` on the total, and whose items
and item count are exactly the cart lines; afterwards the cart is empty. -/
theorem checkout_order (ps : List Product) (c : Int) (st : PaymentStrategy) (v : Int)
    (s : State) (hcart : s.cart = ps.foldl addProduct [])
    (hc : selectStrategy c = some st)
    (hstore : (holdsValue s.disk v ∧ INT_MIN ≤ v ∧ v < INT_MAX) ∨
      (s.disk.orderId.content = none ∧ v = 0)) :
    ∃ o, (checkoutWith c s).2.newOrder = some o ∧ o.orderId = v + 1 ∧
      o.paymentMethod = st.pay (totalAmount s.cart) ∧
      o.items = s.cart ∧ o.itemCount = (s.cart.length : Int) ∧
      (checkoutWith c s).1.cart = [] ∧ isEmpty (checkoutWith c s).1.cart = true := by
  have hlen : s.cart.length ≤ 20 := by
    rw [hcart]; exact foldl_addProduct_length_le ps [] (by simp)
  rw [checkoutWith_valid c s st hc]
  generalize hs1 : ({ s with paymentContext := { strategy := some st } } : State) = s1
  have hd : s1.disk = s.disk := by subst hs1; rfl
  have hid : (getNextOrderId s1).1 = v + 1 := by
    rcases hstore with ⟨hold, h1, h2⟩ | ⟨hnone, hv⟩
    · rw [getNextOrderId_of_holds s1 v (hd ▸ hold) h1 (le_of_lt h2)]
      exact wrapInt_of_range _ (by simp only [INT_MIN] at *; omega)
        (by simp only [INT_MAX] at *; omega)
    · rw [getNextOrderId_unreadable s1 (Or.inl (hd ▸ hnone)), hv]; rfl
  obtain ⟨b1, b2⟩ := buildOrder_orderId (getNextOrderId s1).1 s.cart (st.pay (totalAmount s.cart))
  obtain ⟨b3, b4⟩ := buildOrder_items (getNextOrderId s1).1 s.cart
    (st.pay (totalAmount s.cart)) hlen
  exact ⟨_, rfl, b1.trans hid, b2, b3, b4, rfl, rfl⟩

/-- C7, witness: the end-to-end scenario.  Paper (QWE, 20.50) is added twice, the counter file
does not exist yet, the payment choice is `1` (Cash): the total is `41`, the order has id `1`,
label `Cash` and the single line (QWE, quantity 2), and the cart is empty afterwards. -/
theorem checkout_order_witness :
    (totalAmount ([paper, paper].foldl addProduct [])).map Dyadic.toRat = some 41 ∧
      (checkoutWith 1 { startState 0 (diskWith none true) with
          cart := [paper, paper].foldl addProduct [] }).2.newOrder
        = some { orderId := 1, items := [{ product := paper, quantity := 2 }], itemCount := 1,
                 paymentMethod := "Cash" } ∧
      isEmpty (checkoutWith 1 { startState 0 (diskWith none true) with
          cart := [paper, paper].foldl addProduct [] }).1.cart = true := by
  obtain ⟨o, h1, h2, h3, h4, h5, _, h7⟩ := checkout_order [paper, paper] 1 .CashPayment 0
    { startState 0 (diskWith none true) with cart := [paper, paper].foldl addProduct [] }
    rfl rfl (Or.inr ⟨rfl, rfl⟩)
  have ht : totalAmount ([paper, paper].foldl addProduct []) = some { m := 41, e := 0 } := by
    decide!
  refine ⟨?_, ?_, h7⟩
  · rw [ht]; norm_num [Dyadic.toRat]
  · rw [h1]
    have hcart : [paper, paper].foldl addProduct [] = [{ product := paper, quantity := 2 }] := by
      decide!
    cases o with
    | mk oid items count method =>
      simp only at h2 h3 h4 h5
      rw [h2, h3, h4, h5]
      simp [hcart, PaymentStrategy.pay]

/-- C7, counterexample.  The counter file holds `2147483647`; one paper is checked out with
Cash: the order id is `-2147483648`, not `v + 1`. -/
theorem checkout_order_counterexample :
    holdsValue (diskWith (some "2147483647") true) 2147483647 ∧
      ((checkoutWith 1 { startState 0 (diskWith (some "2147483647") true) with
          cart := [paper].foldl addProduct [] }).2.newOrder).map (fun o => o.orderId)
        = some (-2147483648) ∧
      ((checkoutWith 1 { startState 0 (diskWith (some "2147483647") true) with
          cart := [paper].foldl addProduct [] }).2.newOrder).map (fun o => o.orderId)
        ≠ some (2147483647 + 1) := by
  decide!

/-! ## The order log -/

theorem addOrder_below_capacity (s : State) (o : Order) (hcap : s.manager.orders.length < 20)
    (hw : s.disk.orderLogs.writable = true) :
    (addOrder s o).manager.orders = s.manager.orders ++ [o] ∧
      (addOrder s o).disk.orderLogs.lines = s.disk.orderLogs.lines ++ [logLine o] := by
  simp [addOrder, hcap, hw]

theorem addOrder_at_capacity (s : State) (o : Order) (hcap : ¬ s.manager.orders.length < 20) :
    addOrder s o = s := by
  simp [addOrder, hcap]

/-- C8 (amended).  A checkout with an accepted payment choice, made while the log file can be
appended to and fewer than 20 orders are stored, stores the order it constructs and appends
exactly one line to the log, leaving the earlier lines as they were; the line is
`Order ID: <orderId> has been successfully checked out and paid using <paymentMethod>.` for
the id and the payment method of that order. -/
theorem checkout_log_line (s : State) (c : Int) (st : PaymentStrategy)
    (hc : selectStrategy c = some st) (hw : s.disk.orderLogs.writable = true)
    (hcap : s.manager.orders.length < 20) :
    ∃ o, (checkoutWith c s).2.newOrder = some o ∧
      (checkoutWith c s).1.manager.orders = s.manager.orders ++ [o] ∧
      (checkoutWith c s).1.disk.orderLogs.lines = s.disk.orderLogs.lines ++
        ["Order ID: " ++ toString o.orderId ++
          " has been successfully checked out and paid using " ++ o.paymentMethod ++ "."] := by
  rw [checkoutWith_valid c s st hc]
  generalize hs1 : ({ s with paymentContext := { strategy := some st } } : State) = s1
  have ho : s1.manager.orders = s.manager.orders := by subst hs1; rfl
  have hl : s1.disk.orderLogs = s.disk.orderLogs := by subst hs1; rfl
  obtain ⟨_, g2, _, g4, _, _, _⟩ := getNextOrderId_frame s1
  generalize hord : buildOrder (getNextOrderId s1).1 s.cart (st.pay (totalAmount s.cart)) = o
  obtain ⟨a1, a2⟩ := addOrder_below_capacity (getNextOrderId s1).2 o
    (by rw [g2, ho]; exact hcap) (by rw [g4, hl]; exact hw)
  refine ⟨o, rfl, ?_, ?_⟩
  · show (addOrder (getNextOrderId s1).2 o).manager.orders = _
    rw [a1, g2, ho]
  · show (addOrder (getNextOrderId s1).2 o).disk.orderLogs.lines = _
    rw [a2, g4, hl]
    rfl

/-- C8, witness: the first checkout of a run, two papers paid with Cash. -/
theorem checkout_log_line_witness :
    (checkoutWith 1 { startState 0 (diskWith none true) with
        cart := [paper, paper].foldl addProduct [] }).1.disk.orderLogs.lines
      = ["Order ID: 1 has been successfully checked out and paid using Cash."] := by
  obtain ⟨o, h1, _, h3⟩ := checkout_log_line
    { startState 0 (diskWith none true) with cart := [paper, paper].foldl addProduct [] }
    1 .CashPayment rfl rfl (by decide)
  have ho : (checkoutWith 1 { startState 0 (diskWith none true) with
      cart := [paper, paper].foldl addProduct [] }).2.newOrder
      = some { orderId := 1, items := [{ product := paper, quantity := 2 }], itemCount := 1,
               paymentMethod := "Cash" } := by decide!
  rw [ho, Option.some.injEq] at h1
  subst h1
  rw [h3]
  decide

/-- C8, counterexample.  The line written by the first checkout of a run starts with
`Order ID: 1`, it is not `Order 1 has been …`.  And a run of 21 purchases of one paper, each
paid with Cash on a writable log: the 21st checkout issues id `21` and clears the cart, yet
the log has the same 20 lines and the store the same 20 orders as after the 20th. -/
theorem checkout_log_line_counterexample :
    ((checkoutWith 1 { startState 0 (diskWith none true) with
        cart := [paper, paper].foldl addProduct [] }).1.disk.orderLogs.lines
      ≠ ["Order 1 has been successfully checked out and paid using Cash."]) ∧
    ((buyPaper^[20] (startState 0 (diskWith none true))).disk.orderLogs.writable = true ∧
      (buyPaper^[20] (startState 0 (diskWith none true))).disk.orderLogs.lines.length = 20 ∧
      (buyPaper^[21] (startState 0 (diskWith none true))).disk.orderId.content = some "21" ∧
      (buyPaper^[21] (startState 0 (diskWith none true))).cart = [] ∧
      (buyPaper^[21] (startState 0 (diskWith none true))).disk.orderLogs.lines
        = (buyPaper^[20] (startState 0 (diskWith none true))).disk.orderLogs.lines ∧
      (buyPaper^[21] (startState 0 (diskWith none true))).manager.orders
        = (buyPaper^[20] (startState 0 (diskWith none true))).manager.orders) := by
  decide!

/-! ## The total -/

/-- The cart left by `n + 1` additions of one product to the empty cart. -/
theorem addProduct_replicate (p : Product) (n : Nat) :
    (List.replicate (n + 1) p).foldl addProduct []
      = [{ product := p, quantity := wrapInt (((n + 1 : Nat)) : Int) }] := by
  induction n with
  | zero => simp [addProduct, incrementFirst]; decide
  | succ n ih =>
    rw [List.replicate_succ', List.foldl_append, ih]
    simp only [List.foldl_cons, List.foldl_nil, addProduct, incrementFirst, if_true,
      CartItem.incrementQuantity, wrapInt_succ_wrapInt]
    push_cast
    rfl

/-! ### Reference values -/

/-- Reference values of the binary64 model: `0.1`, `0.3`, `0.1 + 0.2` (which is
`0.30000000000000004`, not `0.3`), the smallest subnormal `5e-324`, two ties
(`2 ^ 53 + 1` rounds down to `2 ^ 53`, `2 ^ 53 + 3` rounds up to `2 ^ 53 + 4`), and an
overflow (`1e308 * 10`). -/
theorem Double.reference_values :
    Double.ofDecimal 1 1 = some { m := 3602879701896397, e := -55 } ∧
      Double.ofDecimal 3 1 = some { m := 5404319552844595, e := -54 } ∧
      Double.add (Double.ofDecimal 1 1) (Double.ofDecimal 2 1)
        = some { m := 1351079888211149, e := -52 } ∧
      Double.ofDecimal 5 324 = some { m := 1, e := -1074 } ∧
      Double.ofInt 9007199254740993 = some { m := 1, e := 53 } ∧
      Double.ofInt 9007199254740995 = some { m := 2251799813685249, e := 2 } ∧
      Double.mul (Double.ofDecimal (10 ^ 308) 0) (Double.ofInt 10) = none := by
  decide!

/-- The prices of the catalog as binary64 values. -/
theorem products_prices :
    products.map (fun p => p.price) =
      [some { m := 41, e := -1 }, some { m := 2941413506626355, e := -48 },
        some { m := 6186819988100219, e := -49 }, some { m := 121, e := -2 },
        some { m := 7036170730324623, e := -46 }] := by
  decide!

/-! ### Exactness of the rounding on binary64 values -/

theorem bitLength_zero (fuel : Nat) : bitLength fuel 0 = 0 := by
  cases fuel <;> simp [bitLength]

theorem lt_two_pow_bitLength (fuel : Nat) : ∀ n : Nat, n ≤ fuel → n < 2 ^ bitLength fuel n := by
  induction fuel with
  | zero => intro n h; simp [bitLength]; omega
  | succ fuel ih =>
    intro n h
    by_cases hn : n = 0
    · subst hn; simp [bitLength]
    · have hrec := ih (n / 2) (by omega)
      simp only [bitLength, hn, if_false, pow_succ]
      omega

theorem two_pow_bitLength_le (fuel : Nat) : ∀ n : Nat, n ≠ 0 → n ≤ fuel →
    2 ^ (bitLength fuel n - 1) ≤ n := by
  induction fuel with
  | zero => intro n hn h; omega
  | succ fuel ih =>
    intro n hn h
    simp only [bitLength, hn, if_false, Nat.add_sub_cancel]
    by_cases h2 : n / 2 = 0
    · rw [h2, bitLength_zero]; simp; omega
    · have hrec := ih (n / 2) h2 (by omega)
      have hpos : 1 ≤ bitLength fuel (n / 2) := by
        cases fuel with
        | zero => omega
        | succ f => simp [bitLength, h2]
      have : 2 ^ bitLength fuel (n / 2) = 2 * 2 ^ (bitLength fuel (n / 2) - 1) := by
        rw [← pow_succ']; congr 1; omega
      omega

/-- A power of two with an integer exponent, as a quotient of natural powers. -/
theorem zpow_two_split (k : Int) :
    (2 : ℚ) ^ k = ((2 ^ k.toNat : Nat) : ℚ) / ((2 ^ (-k).toNat : Nat) : ℚ) := by
  rcases le_total 0 k with h | h
  · obtain ⟨a, rfl⟩ := Int.eq_ofNat_of_zero_le h
    simp
  · obtain ⟨a, ha⟩ := Int.eq_ofNat_of_zero_le (neg_nonneg.2 h)
    have hk : k = -(a : Int) := by omega
    subst hk
    simp [zpow_neg]

/-- The exponent computed by `floorLog2` brackets the quotient. -/
theorem floorLog2_spec (n d : Nat) (hn : 0 < n) (hd : 0 < d) :
    (2 : ℚ) ^ floorLog2 n d ≤ (n : ℚ) / d ∧ (n : ℚ) / d < (2 : ℚ) ^ (floorLog2 n d + 1) := by
  have hdq : (0 : ℚ) < d := by exact_mod_cast hd
  have hnU : (n : ℚ) < 2 ^ (bitLength n n : Int) := by
    have := lt_two_pow_bitLength n n (le_refl n)
    rw [zpow_natCast]; exact_mod_cast this
  have hnL : (2 : ℚ) ^ ((bitLength n n : Int) - 1) ≤ n := by
    have h1 := two_pow_bitLength_le n n (by omega) (le_refl n)
    have hpos : 1 ≤ bitLength n n := by
      cases n with
      | zero => omega
      | succ m => simp [bitLength]
    have : ((bitLength n n : Int) - 1) = ((bitLength n n - 1 : Nat) : Int) := by omega
    rw [this, zpow_natCast]; exact_mod_cast h1
  have hdU : (d : ℚ) < 2 ^ (bitLength d d : Int) := by
    have := lt_two_pow_bitLength d d (le_refl d)
    rw [zpow_natCast]; exact_mod_cast this
  have hdL : (2 : ℚ) ^ ((bitLength d d : Int) - 1) ≤ d := by
    have h1 := two_pow_bitLength_le d d (by omega) (le_refl d)
    have hpos : 1 ≤ bitLength d d := by
      cases d with
      | zero => omega
      | succ m => simp [bitLength]
    have : ((bitLength d d : Int) - 1) = ((bitLength d d - 1 : Nat) : Int) := by omega
    rw [this, zpow_natCast]; exact_mod_cast h1
  have h2 : (0 : ℚ) < 2 := by norm_num
  generalize hk0 : ((bitLength n n : Int) - (bitLength d d : Int)) = k0
  -- upper and lower estimates with `k0`
  have hup : (n : ℚ) / d < (2 : ℚ) ^ (k0 + 1) := by
    rw [div_lt_iff₀ hdq]
    calc (n : ℚ) < 2 ^ (bitLength n n : Int) := hnU
      _ = 2 ^ (k0 + 1) * 2 ^ ((bitLength d d : Int) - 1) := by
        rw [← zpow_add₀ (by norm_num : (2 : ℚ) ≠ 0)]; congr 1; omega
      _ ≤ 2 ^ (k0 + 1) * d := by
        apply mul_le_mul_of_nonneg_left hdL (le_of_lt (zpow_pos h2 _))
  have hlow : (2 : ℚ) ^ (k0 - 1) ≤ (n : ℚ) / d := by
    rw [le_div_iff₀ hdq]
    calc (2 : ℚ) ^ (k0 - 1) * d ≤ 2 ^ (k0 - 1) * 2 ^ (bitLength d d : Int) := by
          apply mul_le_mul_of_nonneg_left (le_of_lt hdU) (le_of_lt (zpow_pos h2 _))
      _ = 2 ^ ((bitLength n n : Int) - 1) := by
        rw [← zpow_add₀ (by norm_num : (2 : ℚ) ≠ 0)]; congr 1; omega
      _ ≤ n := hnL
  have htest : (d * 2 ^ k0.toNat ≤ n * 2 ^ (-k0).toNat) ↔ (2 : ℚ) ^ k0 ≤ (n : ℚ) / d := by
    rw [le_div_iff₀ hdq, zpow_two_split k0]
    have hp : (0 : ℚ) < ((2 ^ (-k0).toNat : Nat) : ℚ) := by positivity
    rw [div_mul_eq_mul_div, div_le_iff₀ hp]
    constructor
    · intro h
      have : ((d * 2 ^ k0.toNat : Nat) : ℚ) ≤ ((n * 2 ^ (-k0).toNat : Nat) : ℚ) := by
        exact_mod_cast h
      push_cast at this ⊢
      linarith
    · intro h
      have : ((d * 2 ^ k0.toNat : Nat) : ℚ) ≤ ((n * 2 ^ (-k0).toNat : Nat) : ℚ) := by
        push_cast at h ⊢
        linarith
      exact_mod_cast this
  simp only [floorLog2, hk0]
  by_cases ht : d * 2 ^ k0.toNat ≤ n * 2 ^ (-k0).toNat
  · rw [if_pos ht]
    exact ⟨htest.1 ht, hup⟩
  · rw [if_neg ht]
    refine ⟨hlow, ?_⟩
    have : ¬ (2 : ℚ) ^ k0 ≤ (n : ℚ) / d := fun h => ht (htest.2 h)
    have hlt := lt_of_not_le this
    have : k0 - 1 + 1 = k0 := by omega
    rw [this]; exact hlt

theorem lowestTerms_value (fuel : Nat) : ∀ (m : Nat) (e : Int),
    ((lowestTerms fuel m e).1 : ℚ) * (2 : ℚ) ^ (lowestTerms fuel m e).2 = (m : ℚ) * (2 : ℚ) ^ e := by
  induction fuel with
  | zero => intro m e; rfl
  | succ fuel ih =>
    intro m e
    unfold lowestTerms
    by_cases h0 : m = 0
    · simp [h0]
    · rw [if_neg h0]
      by_cases h2 : m % 2 = 0
      · rw [if_pos h2, ih]
        have hm : (m : ℚ) = 2 * ((m / 2 : Nat) : ℚ) := by
          have : m = 2 * (m / 2) := by omega
          exact_mod_cast this
        rw [hm, zpow_add_one₀ (by norm_num : (2 : ℚ) ≠ 0)]
        ring
      · rw [if_neg h2]

theorem roundHalfEven_exact (N d : Nat) (hd : 0 < d) : roundHalfEven (N * d) d = N := by
  have hq : N * d / d = N := Nat.mul_div_cancel _ hd
  have hr : N * d % d = 0 := Nat.mul_mod_left _ _
  simp only [roundHalfEven, hq, hr]
  rw [if_pos (by omega)]

/-- The rounding of a positive quotient that is a binary64 value is that value. -/
theorem roundRatio_exact (negative : Bool) (n d m1 : Nat) (e1 : Int) (hn : 0 < n) (hd : 0 < d)
    (hm : m1 < 2 ^ 53) (he : -1074 ≤ e1) (he' : e1 ≤ 971)
    (hx : (n : ℚ) / d = (m1 : ℚ) * (2 : ℚ) ^ e1) :
    ∃ r, roundRatio negative n d = some r ∧
      r.toRat = if negative then -((n : ℚ) / d) else (n : ℚ) / d := by
  have h2 : (0 : ℚ) < 2 := by norm_num
  have h2' : (2 : ℚ) ≠ 0 := by norm_num
  have hdq : (0 : ℚ) < d := by exact_mod_cast hd
  obtain ⟨hlo, hhi⟩ := floorLog2_spec n d hn hd
  generalize hk : floorLog2 n d = k at hlo hhi
  have h53 : (2 : ℚ) ^ (53 : Int) = ((2 ^ 53 : Nat) : ℚ) := by norm_num
  have hm1q : (m1 : ℚ) < 2 ^ (53 : Int) := by
    rw [h53]; exact_mod_cast hm
  have hxpos : (0 : ℚ) < (n : ℚ) / d := by positivity
  have hm1pos : (0 : ℚ) < m1 := by
    rcases Nat.eq_zero_or_pos m1 with h | h
    · rw [h] at hx; simp at hx; omega
    · exact_mod_cast h
  -- the exponent chosen by the rounding is at most `e1`
  have hk1 : k < 53 + e1 := by
    have : (2 : ℚ) ^ k < 2 ^ (53 + e1) := by
      calc (2 : ℚ) ^ k ≤ (n : ℚ) / d := hlo
        _ = (m1 : ℚ) * 2 ^ e1 := hx
        _ < 2 ^ (53 : Int) * 2 ^ e1 := by
          apply mul_lt_mul_of_pos_right hm1q (zpow_pos h2 _)
        _ = 2 ^ (53 + e1) := by rw [zpow_add₀ h2']
    exact (zpow_lt_zpow_iff_right₀ (by norm_num : (1 : ℚ) < 2)).1 this
  generalize hE : max (k - 52) (-1074) = E
  have hEle : E ≤ e1 := by rw [← hE]; exact max_le (by omega) he
  have hEge : k - 52 ≤ E := by rw [← hE]; exact le_max_left _ _
  have hEge' : -1074 ≤ E := by rw [← hE]; exact le_max_right _ _
  -- the scaled quotient is the natural number `N`
  generalize hN : m1 * 2 ^ (e1 - E).toNat = N
  have hNq : (N : ℚ) = (n : ℚ) / d * (2 : ℚ) ^ (-E) := by
    rw [← hN, hx]
    push_cast
    have : ((2 : ℚ) ^ (e1 - E).toNat) = (2 : ℚ) ^ (e1 - E) := by
      rw [← zpow_natCast, Int.toNat_of_nonneg (by omega)]
    rw [this, mul_assoc, ← zpow_add₀ h2']
    congr 2
  have hsplit := zpow_two_split E
  have hpA : (0 : ℚ) < ((2 ^ E.toNat : Nat) : ℚ) := by positivity
  have hpB : (0 : ℚ) < ((2 ^ (-E).toNat : Nat) : ℚ) := by positivity
  have hscaled : n * 2 ^ (-E).toNat = N * (d * 2 ^ E.toNat) := by
    have : ((n * 2 ^ (-E).toNat : Nat) : ℚ) = ((N * (d * 2 ^ E.toNat) : Nat) : ℚ) := by
      rw [Nat.cast_mul, Nat.cast_mul N, Nat.cast_mul d, hNq, zpow_neg, hsplit]
      field_simp
    exact_mod_cast this
  have hDpos : 0 < d * 2 ^ E.toNat := by positivity
  have hround : roundHalfEven (n * 2 ^ (-E).toNat) (d * 2 ^ E.toNat) = N := by
    rw [hscaled]; exact roundHalfEven_exact N _ hDpos
  -- no overflow
  have hxlt : (n : ℚ) / d < 2 ^ (1024 : Int) := by
    rw [hx]
    calc (m1 : ℚ) * 2 ^ e1 < 2 ^ (53 : Int) * 2 ^ e1 :=
          mul_lt_mul_of_pos_right hm1q (zpow_pos h2 _)
      _ = 2 ^ (53 + e1) := by rw [zpow_add₀ h2']
      _ ≤ 2 ^ (1024 : Int) := zpow_le_zpow_right₀ (by norm_num) (by omega)
  have hval : (N : ℚ) * (2 : ℚ) ^ E = (n : ℚ) / d := by
    rw [hNq, mul_assoc, ← zpow_add₀ h2']; simp
  have hover : ¬ 2 ^ 1024 ≤ N * 2 ^ E.toNat := by
    intro hcontra
    have hc : ((2 ^ 1024 : Nat) : ℚ) ≤ ((N * 2 ^ E.toNat : Nat) : ℚ) := by exact_mod_cast hcontra
    rw [Nat.cast_mul] at hc
    rcases le_total 0 E with hpos | hneg
    · have hEq : ((2 ^ E.toNat : Nat) : ℚ) = (2 : ℚ) ^ E := by
        rw [Nat.cast_pow, ← zpow_natCast, Int.toNat_of_nonneg hpos]; norm_num
      rw [hEq, hval] at hc
      have : ((2 ^ 1024 : Nat) : ℚ) = (2 : ℚ) ^ (1024 : Int) := by norm_num
      rw [this] at hc
      exact absurd hxlt (not_lt.2 hc)
    · have hE0 : E.toNat = 0 := Int.toNat_of_nonpos hneg
      rw [hE0] at hc
      simp only [pow_zero, Nat.cast_one, mul_one] at hc
      have hNlt : (N : ℚ) < 2 ^ (53 : Int) := by
        rw [hNq]
        calc (n : ℚ) / d * 2 ^ (-E) < 2 ^ (k + 1) * 2 ^ (-E) :=
              mul_lt_mul_of_pos_right hhi (zpow_pos h2 _)
          _ = 2 ^ (k + 1 + -E) := (zpow_add₀ h2' (k + 1) (-E)).symm
          _ ≤ 2 ^ (53 : Int) := zpow_le_zpow_right₀ (by norm_num) (by omega)
      have : (2 : ℚ) ^ (53 : Int) ≤ ((2 ^ 1024 : Nat) : ℚ) := by norm_num
      linarith
  have hlow := lowestTerms_value 64 N E
  simp only [roundRatio, hk, hE, hround, if_neg hover]
  rcases hlt : lowestTerms 64 N E with ⟨ma, ea⟩
  rw [hlt] at hlow
  simp only at hlow
  refine ⟨_, rfl, ?_⟩
  cases negative
  · simp only [Dyadic.toRat, Bool.false_eq_true, if_false]
    push_cast
    rw [hlow, hval]
  · simp only [Dyadic.toRat, if_true]
    push_cast
    rw [neg_mul, hlow, hval]

/-- Rounding is the identity on binary64 values. -/
theorem fl_exact (m e : Int) (h : isBinary64 ((m : ℚ) * (2 : ℚ) ^ e)) :
    ∃ r, fl m e = some r ∧ r.toRat = (m : ℚ) * (2 : ℚ) ^ e := by
  by_cases hm0 : m = 0
  · subst hm0
    exact ⟨{ m := 0, e := 0 }, by simp [fl], by simp [Dyadic.toRat]⟩
  · obtain ⟨m1, e1, hm1, he1, he1', hx⟩ := h
    have h2 : (0 : ℚ) < 2 := by norm_num
    have hquot : (((m.natAbs * 2 ^ e.toNat : Nat)) : ℚ) / ((2 ^ (-e).toNat : Nat) : ℚ)
        = |(m : ℚ)| * (2 : ℚ) ^ e := by
      rw [zpow_two_split e, Nat.cast_mul, Nat.cast_natAbs, Int.cast_abs, mul_div_assoc]
    have habs : |(m : ℚ)| * (2 : ℚ) ^ e = ((m1.natAbs : Nat) : ℚ) * (2 : ℚ) ^ e1 := by
      have := congrArg (fun q : ℚ => |q|) hx
      simp only [abs_mul, abs_of_pos (zpow_pos h2 _)] at this
      rw [this, Nat.cast_natAbs, Int.cast_abs]
    have hnpos : 0 < m.natAbs * 2 ^ e.toNat :=
      Nat.mul_pos (Int.natAbs_pos.2 hm0) (by positivity)
    obtain ⟨r, hr1, hr2⟩ := roundRatio_exact (decide (m < 0)) (m.natAbs * 2 ^ e.toNat)
      (2 ^ (-e).toNat) m1.natAbs e1 hnpos (by positivity) hm1 he1 he1' (hquot.trans habs)
    refine ⟨r, by simp [fl, hm0, hr1], ?_⟩
    rw [hr2, hquot]
    by_cases hneg : m < 0
    · have : (m : ℚ) < 0 := by exact_mod_cast hneg
      simp only [hneg, decide_True, if_true, abs_of_neg this]
      ring
    · have : (0 : ℚ) ≤ m := by exact_mod_cast (not_lt.1 hneg)
      simp only [hneg, decide_False, Bool.false_eq_true, if_false, abs_of_nonneg this]

theorem Double.mul_exact (x y : Dyadic) (h : isBinary64 (x.toRat * y.toRat)) :
    ∃ r, Double.mul (some x) (some y) = some r ∧ r.toRat = x.toRat * y.toRat := by
  have hval : ((x.m * y.m : Int) : ℚ) * (2 : ℚ) ^ (x.e + y.e) = x.toRat * y.toRat := by
    simp only [Dyadic.toRat, Int.cast_mul, zpow_add₀ (by norm_num : (2 : ℚ) ≠ 0)]
    ring
  obtain ⟨r, h1, h2⟩ := fl_exact (x.m * y.m) (x.e + y.e) (by rw [hval]; exact h)
  exact ⟨r, h1, h2.trans hval⟩

theorem Double.add_exact (x y : Dyadic) (h : isBinary64 (x.toRat + y.toRat)) :
    ∃ r, Double.add (some x) (some y) = some r ∧ r.toRat = x.toRat + y.toRat := by
  have h2' : (2 : ℚ) ≠ 0 := by norm_num
  have hpow : ∀ a : Int, min x.e y.e ≤ a →
      (((2 : Int) ^ (a - min x.e y.e).toNat : Int) : ℚ) * (2 : ℚ) ^ (min x.e y.e) = (2 : ℚ) ^ a := by
    intro a ha
    rw [Int.cast_pow, ← zpow_natCast, Int.toNat_of_nonneg (by omega), Int.cast_ofNat,
      ← zpow_add₀ h2']
    congr 1; omega
  have hval : ((x.m * 2 ^ (x.e - min x.e y.e).toNat + y.m * 2 ^ (y.e - min x.e y.e).toNat : Int) : ℚ)
      * (2 : ℚ) ^ (min x.e y.e) = x.toRat + y.toRat := by
    simp only [Dyadic.toRat]
    rw [Int.cast_add, Int.cast_mul, Int.cast_mul, add_mul, mul_assoc, mul_assoc,
      hpow x.e (min_le_left _ _), hpow y.e (min_le_right _ _)]
  obtain ⟨r, h1, h2⟩ := fl_exact _ _ (by rw [hval]; exact h)
  exact ⟨r, h1, h2.trans hval⟩

theorem Double.ofInt_exact (i : Int) (h1 : INT_MIN ≤ i) (h2 : i ≤ INT_MAX) :
    ∃ r, Double.ofInt i = some r ∧ r.toRat = (i : ℚ) := by
  have hb : isBinary64 ((i : ℚ) * (2 : ℚ) ^ (0 : Int)) := by
    refine ⟨i, 0, ?_, by norm_num, by norm_num, rfl⟩
    simp only [INT_MIN, INT_MAX] at h1 h2
    omega
  obtain ⟨r, hr1, hr2⟩ := fl_exact i 0 hb
  exact ⟨r, hr1, by simpa using hr2⟩

theorem exactTotal_cons (item : CartItem) (rest : List CartItem) :
    exactTotal (item :: rest) = lineValue item + exactTotal rest := by
  simp [exactTotal]

theorem foldl_total_exact (cart : List CartItem) : ∀ a : Dyadic,
    (∀ item ∈ cart, item.product.price ≠ none) →
    (∀ item ∈ cart, INT_MIN ≤ item.quantity ∧ item.quantity ≤ INT_MAX) →
    (∀ item ∈ cart, isBinary64 (lineValue item)) →
    (∀ k : Nat, k ≤ cart.length → isBinary64 (a.toRat + exactTotal (cart.take k))) →
    ∃ r, cart.foldl (fun total item =>
        Double.add total (Double.mul item.product.price (Double.ofInt item.quantity))) (some a)
          = some r ∧ r.toRat = a.toRat + exactTotal cart := by
  induction cart with
  | nil => intro a _ _ _ _; exact ⟨a, rfl, by simp [exactTotal]⟩
  | cons item rest ih =>
    intro a hfin hq hline hsum
    have hmem : item ∈ item :: rest := List.mem_cons_self _ _
    obtain ⟨y, hy1, hy2⟩ := Double.ofInt_exact item.quantity (hq item hmem).1 (hq item hmem).2
    cases hprice : item.product.price with
    | none => exact absurd hprice (hfin item hmem)
    | some x =>
      have hlv : lineValue item = x.toRat * y.toRat := by
        simp only [lineValue, hprice, hy2]
      obtain ⟨p, hp1, hp2⟩ := Double.mul_exact x y (by rw [← hlv]; exact hline item hmem)
      have hs1 := hsum 1 (by simp)
      simp only [List.take_succ_cons, List.take_zero, exactTotal_cons] at hs1
      have hs1' : isBinary64 (a.toRat + p.toRat) := by
        rw [hp2, ← hlv]; simpa [exactTotal] using hs1
      obtain ⟨a1, ha1, ha2⟩ := Double.add_exact a p hs1'
      obtain ⟨r, hr1, hr2⟩ := ih a1
        (fun i hi => hfin i (List.mem_cons_of_mem _ hi))
        (fun i hi => hq i (List.mem_cons_of_mem _ hi))
        (fun i hi => hline i (List.mem_cons_of_mem _ hi))
        (by
          intro k hk
          have := hsum (k + 1) (by simp only [List.length_cons]; omega)
          simp only [List.take_succ_cons, exactTotal_cons] at this
          rw [ha2, hp2, ← hlv, add_assoc]
          exact this)
      refine ⟨r, ?_, ?_⟩
      · rw [List.foldl_cons, hprice, hy1, hp1, ha1]
        exact hr1
      · rw [hr2, ha2, hp2, ← hlv, exactTotal_cons, add_assoc]

/-! ### The total of a checkout -/

/-- The total is the exact sum whenever no rounding is needed: every price is finite, every
`price * quantity` and every partial sum is a binary64 value. -/
theorem totalAmount_exact (cart : List CartItem)
    (hfin : ∀ item ∈ cart, item.product.price ≠ none)
    (hq : ∀ item ∈ cart, INT_MIN ≤ item.quantity ∧ item.quantity ≤ INT_MAX)
    (hline : ∀ item ∈ cart, isBinary64 (lineValue item))
    (hsum : ∀ k : Nat, k ≤ cart.length → isBinary64 (exactTotal (cart.take k))) :
    (totalAmount cart).map Dyadic.toRat = some (exactTotal cart) := by
  have h0 : Double.ofInt 0 = some { m := 0, e := 0 } := by decide
  have hz : ({ m := 0, e := 0 } : Dyadic).toRat = 0 := by simp [Dyadic.toRat]
  obtain ⟨r, hr1, hr2⟩ := foldl_total_exact cart { m := 0, e := 0 } hfin hq hline
    (by intro k hk; rw [hz, zero_add]; exact hsum k hk)
  simp only [totalAmount, h0, hr1, Option.map_some', hr2, hz, zero_add]

/-- C9 (amended).  The total computed at checkout is accumulated in `double`.  It equals the
exact sum of `price * quantity` over the cart lines (with the stored `double` prices) for every
cart in which each `price * quantity` and each partial sum is a binary64 value.  In the two
named instances it is the exact decimal sum: the cart left by `10000` additions of a
`0.10`-priced product (one line with quantity `10000`) has total `1000`, and paper (`20.50`)
added twice has total `41`. -/
theorem totalAmount_double :
    (∀ (s : State) (c : Int),
      (∀ item ∈ s.cart, item.product.price ≠ none) →
      (∀ item ∈ s.cart, INT_MIN ≤ item.quantity ∧ item.quantity ≤ INT_MAX) →
      (∀ item ∈ s.cart, isBinary64 (lineValue item)) →
      (∀ k : Nat, k ≤ s.cart.length → isBinary64 (exactTotal (s.cart.take k))) →
      (checkoutWith c s).2.totalAmount.map Dyadic.toRat = some (exactTotal s.cart)) ∧
    ((List.replicate 10000 dime).foldl addProduct [] = [{ product := dime, quantity := 10000 }] ∧
      (totalAmount [{ product := dime, quantity := 10000 }]).map Dyadic.toRat = some 1000) ∧
    ([paper, paper].foldl addProduct [] = [{ product := paper, quantity := 2 }] ∧
      (totalAmount [{ product := paper, quantity := 2 }]).map Dyadic.toRat = some 41) := by
  have h1 : totalAmount [{ product := dime, quantity := 10000 }] = some { m := 125, e := 3 } := by
    decide!
  have h2 : totalAmount [{ product := paper, quantity := 2 }] = some { m := 41, e := 0 } := by
    decide!
  have h3 : wrapInt (((9999 + 1 : Nat)) : Int) = 10000 := by decide
  refine ⟨?_, ⟨?_, ?_⟩, ⟨by decide!, ?_⟩⟩
  · intro s c hfin hq hline hsum
    have ht : (checkoutWith c s).2.totalAmount = totalAmount s.cart := by
      simp only [checkoutWith]
      split <;> rfl
    rw [ht]
    exact totalAmount_exact s.cart hfin hq hline hsum
  · rw [← h3]; exact addProduct_replicate dime 9999
  · rw [h1]; norm_num [Dyadic.toRat]
  · rw [h2]; norm_num [Dyadic.toRat]

/-- C9, witness: two papers in the cart; `20.50 * 2` and the partial sums `0` and `41` are
binary64 values, and the total of the checkout is their exact sum. -/
theorem totalAmount_double_witness :
    (checkoutWith 1 { startState 0 (diskWith none true) with
        cart := [{ product := paper, quantity := 2 }] }).2.totalAmount.map Dyadic.toRat
      = some (exactTotal [{ product := paper, quantity := 2 }]) ∧
    exactTotal [{ product := paper, quantity := 2 }] = 41 := by
  have hprice : paper.price = some { m := 41, e := -1 } := by decide!
  have hlv : lineValue { product := paper, quantity := 2 } = 41 := by
    simp only [lineValue, hprice, Dyadic.toRat]
    norm_num
  have hex : exactTotal [{ product := paper, quantity := 2 }] = 41 := by
    simp [exactTotal, hlv]
  have hb0 : isBinary64 0 := ⟨0, 0, by norm_num, by norm_num, by norm_num, by norm_num⟩
  have hb41 : isBinary64 41 := ⟨41, 0, by norm_num, by norm_num, by norm_num, by norm_num⟩
  refine ⟨?_, hex⟩
  refine totalAmount_double.1
    { startState 0 (diskWith none true) with cart := [{ product := paper, quantity := 2 }] } 1
    ?_ ?_ ?_ ?_
  · intro item hi
    rw [List.mem_singleton.1 hi, hprice]
    exact Option.some_ne_none _
  · intro item hi
    rw [List.mem_singleton.1 hi]
    decide
  · intro item hi
    rw [List.mem_singleton.1 hi, hlv]
    exact hb41
  · intro k hk
    have hk' : k = 0 ∨ k = 1 := by
      have : k ≤ 1 := hk
      omega
    rcases hk' with rfl | rfl
    · simpa [exactTotal] using hb0
    · show isBinary64 (exactTotal [{ product := paper, quantity := 2 }])
      rw [hex]; exact hb41

/-- C9, counterexample.  Pencil (`10.45`) added three times: the exact decimal sum is `31.35`,
the total computed is `8824240519879065 / 2 ^ 48` (printed in full: `31.349999999999998`),
which is neither `31.35` nor the `double` nearest to `31.35`. -/
theorem totalAmount_counterexample :
    [pencil, pencil, pencil].foldl addProduct [] = [{ product := pencil, quantity := 3 }] ∧
      (totalAmount [{ product := pencil, quantity := 3 }]).map Dyadic.toRat
        = some (8824240519879065 / 2 ^ 48) ∧
      (totalAmount [{ product := pencil, quantity := 3 }]).map Dyadic.toRat
        ≠ some (3135 / 100) ∧
      totalAmount [{ product := pencil, quantity := 3 }] ≠ Double.ofDecimal 3135 2 := by
  have h : totalAmount [{ product := pencil, quantity := 3 }]
      = some { m := 8824240519879065, e := -48 } := by decide!
  refine ⟨by decide!, ?_, ?_, by decide!⟩
  · rw [h]; norm_num [Dyadic.toRat]
  · rw [h]; norm_num [Dyadic.toRat]

/-! ## Reachable cart states -/

theorem checkoutWith_cart (c : Int) (s : State) :
    (checkoutWith c s).1.cart = [] ∨ (checkoutWith c s).1.cart = s.cart := by
  cases hsel : selectStrategy c with
  | none => right; simp only [checkoutWith, hsel]
  | some st => left; rw [checkoutWith_valid c s st hsel]

theorem step_cart (s : State) (op : CartOp) :
    (step s op).cart = [] ∨ (step s op).cart = s.cart ∨
      ∃ p, (step s op).cart = addProduct s.cart p := by
  cases op with
  | addProduct p => exact Or.inr (Or.inr ⟨p, rfl⟩)
  | checkout c =>
    rcases checkoutWith_cart c s with h | h
    · exact Or.inl h
    · exact Or.inr (Or.inl h)

theorem run_structure (ops : List CartOp) : ∀ s : State,
    (s.cart.map (fun item => item.product.id)).Nodup → s.cart.length ≤ 20 →
    ((run s ops).cart.map (fun item => item.product.id)).Nodup ∧ (run s ops).cart.length ≤ 20 := by
  induction ops with
  | nil => intro s h1 h2; exact ⟨h1, h2⟩
  | cons op rest ih =>
    intro s h1 h2
    have hrun : run s (op :: rest) = run (step s op) rest := rfl
    rw [hrun]
    rcases step_cart s op with h | h | ⟨p, h⟩
    · exact ih _ (by rw [h]; exact List.nodup_nil) (by rw [h]; simp)
    · exact ih _ (by rw [h]; exact h1) (by rw [h]; exact h2)
    · exact ih _ (by rw [h]; exact addProduct_nodup _ _ h1)
        (by rw [h]; exact addProduct_length_le _ _ h2)

theorem run_quantity (ops : List CartOp) : ∀ (s : State) (k : Int), 0 ≤ k →
    k + ops.length ≤ INT_MAX → (∀ item ∈ s.cart, 1 ≤ item.quantity ∧ item.quantity ≤ k) →
    ∀ item ∈ (run s ops).cart, 1 ≤ item.quantity ∧ item.quantity ≤ k + ops.length := by
  induction ops with
  | nil =>
    intro s k _ _ h item hitem
    have := h item hitem
    simpa [run] using this
  | cons op rest ih =>
    intro s k hk hlen h
    have hrun : run s (op :: rest) = run (step s op) rest := rfl
    rw [hrun]
    simp only [List.length_cons] at hlen ⊢
    push_cast at hlen ⊢
    have hstep : ∀ item ∈ (step s op).cart, 1 ≤ item.quantity ∧ item.quantity ≤ k + 1 := by
      rcases step_cart s op with h' | h' | ⟨p, h'⟩
      · rw [h']; intro item hitem; simp at hitem
      · rw [h']; intro item hitem; have := h item hitem; omega
      · rw [h']; exact addProduct_quantity _ p k ⟨hk, by omega⟩ h
    have := ih (step s op) (k + 1) (by omega) (by omega) hstep
    intro item hitem
    have := this item hitem
    omega

/-- C10 (amended).  In every cart state reachable from the empty cart by any interleaving of
`addProduct` and `checkout`, no two lines share a product id and there are at most 20 lines;
and as long as at most `2147483647` operations have been performed, every quantity is at
least 1. -/
theorem cart_invariant (s : State) (ops : List CartOp) (h0 : s.cart = []) :
    ((run s ops).cart.map (fun item => item.product.id)).Nodup ∧
      (run s ops).cart.length ≤ 20 ∧
      (ops.length ≤ 2147483647 → ∀ item ∈ (run s ops).cart, 1 ≤ item.quantity) := by
  obtain ⟨h1, h2⟩ := run_structure ops s (by rw [h0]; exact List.nodup_nil) (by rw [h0]; simp)
  refine ⟨h1, h2, ?_⟩
  intro hlen item hitem
  have hlen' : (0 : Int) + (ops.length : Int) ≤ INT_MAX := by
    simp only [INT_MAX]; omega
  exact (run_quantity ops s 0 (le_refl 0) hlen' (by rw [h0]; intro i hi; simp at hi)
    item hitem).1

/-- C10, witness: paper, pencil, paper, a checkout with Cash, then pencil. -/
theorem cart_invariant_witness :
    (startState 0 (diskWith none true)).cart = [] ∧
      (run (startState 0 (diskWith none true))
        [.addProduct paper, .addProduct pencil, .addProduct paper, .checkout 1,
          .addProduct pencil]).cart.length ≤ 20 ∧
      ∀ item ∈ (run (startState 0 (diskWith none true))
        [.addProduct paper, .addProduct pencil, .addProduct paper, .checkout 1,
          .addProduct pencil]).cart, 1 ≤ item.quantity :=
  ⟨rfl,
    (cart_invariant (startState 0 (diskWith none true))
      [.addProduct paper, .addProduct pencil, .addProduct paper, .checkout 1,
        .addProduct pencil] rfl).2.1,
    (cart_invariant (startState 0 (diskWith none true))
      [.addProduct paper, .addProduct pencil, .addProduct paper, .checkout 1,
        .addProduct pencil] rfl).2.2 (by decide)⟩

theorem run_addProducts (ps : List Product) : ∀ s : State,
    (run s (ps.map CartOp.addProduct)).cart = ps.foldl addProduct s.cart := by
  induction ps with
  | nil => intro s; rfl
  | cons p rest ih =>
    intro s
    have hrun : run s ((p :: rest).map CartOp.addProduct)
        = run (step s (.addProduct p)) (rest.map CartOp.addProduct) := rfl
    rw [hrun, ih]
    rfl

/-- C10, counterexample.  After `2147483648` calls of `addProduct` with paper, starting from
the empty cart, the cart has a line whose quantity is `-2147483648`. -/
theorem cart_invariant_counterexample :
    (startState 0 (diskWith none true)).cart = [] ∧
      ∃ item ∈ (run (startState 0 (diskWith none true))
          ((List.replicate 2147483648 paper).map CartOp.addProduct)).cart,
        item.quantity = -2147483648 ∧ ¬ 1 ≤ item.quantity := by
  refine ⟨rfl, ?_⟩
  rw [run_addProducts]
  have hq := addProduct_quantity_overflow
  have hcart : (startState 0 (diskWith none true)).cart = [] := rfl
  rw [hcart]
  unfold quantityOf at hq
  cases hf : List.find? (fun item => decide (item.product.id = "QWE"))
      ((List.replicate 2147483648 paper).foldl addProduct []) with
  | none => rw [hf] at hq; simp at hq
  | some item =>
    rw [hf] at hq
    simp only [Option.map_some', Option.some.injEq] at hq
    exact ⟨item, List.mem_of_find?_eq_some hf, hq, by rw [hq]; decide⟩

end Pos
